import Mathlib

/-!
# upb collections (`upb/collections.c`): arrays over raw byte buffers

A shallow embedding of the type-erased array layer of `upb/collections.c`.

* Memory is a list of bytes; `memcpy`/`memmove` act on byte offsets.
* `size_t` values are natural numbers reduced modulo `2 ^ w`, where `w` is the
  word width of the target (`Arch`).
* `UPB_ASSERT` failures are the `none` result of an operation.
* The arena and `_upb_Array_Resize` live in headers that are not part of
  `collections.c`; they are modelled from the written specification.
-/

namespace Upb

/-! ## Targets and machine words -/

/-- The two targets `UPB_SIZE(size32, size64)` distinguishes. -/
inductive Arch where
  | bits32
  | bits64
  deriving DecidableEq, Repr

/-- The value of `sizeof(void*)`. -/
def Arch.ptrBytes : Arch → Nat
  | .bits32 => 4
  | .bits64 => 8

/-- Number of values of a `size_t`: `2 ^ w`. -/
def Arch.sizeMod (A : Arch) : Nat := 2 ^ (8 * A.ptrBytes)

/-- Modelled from the spec: the macro `UPB_SIZE(size32, size64)` of
`upb/port_def.inc`, which picks its first argument on a 32-bit target and its
second on a 64-bit target. -/
def UPB_SIZE (A : Arch) (size32 size64 : Nat) : Nat :=
  match A with
  | .bits32 => size32
  | .bits64 => size64

/-- Addition of two `size_t`. -/
def addw (A : Arch) (a b : Nat) : Nat := (a + b) % A.sizeMod

/-- Subtraction of two `size_t` (wraps below zero). -/
def subw (A : Arch) (a b : Nat) : Nat := (a + A.sizeMod - b) % A.sizeMod

/-- Left shift of a `size_t`. -/
def shlw (A : Arch) (a s : Nat) : Nat := (a <<< s) % A.sizeMod

/-! ## Value kinds and the size-class tables -/

/-- The enumeration `upb_CType`; the numbering `1 .. 11` is the order of the
entries of the two tables below. -/
inductive upb_CType where
  | Bool
  | Float
  | Int32
  | UInt32
  | Enum
  | Message
  | Double
  | Int64
  | UInt64
  | String
  | Bytes
  deriving DecidableEq, Repr

/-- The integer value of a `upb_CType` enumerator. -/
def upb_CType.toNat : upb_CType → Nat
  | .Bool => 1
  | .Float => 2
  | .Int32 => 3
  | .UInt32 => 4
  | .Enum => 5
  | .Message => 6
  | .Double => 7
  | .Int64 => 8
  | .UInt64 => 9
  | .String => 10
  | .Bytes => 11

/-- All eleven value kinds. -/
def upb_CType.all : List upb_CType :=
  [.Bool, .Float, .Int32, .UInt32, .Enum, .Message, .Double, .Int64, .UInt64, .String, .Bytes]

/-- The table `_upb_CTypeo_mapsize[12]`: strings/bytes are special-cased in maps. -/
def _upb_CTypeo_mapsize (A : Arch) : List Nat :=
  [ 0,
    1,            -- kUpb_CType_Bool
    4,            -- kUpb_CType_Float
    4,            -- kUpb_CType_Int32
    4,            -- kUpb_CType_UInt32
    4,            -- kUpb_CType_Enum
    A.ptrBytes,   -- kUpb_CType_Message
    8,            -- kUpb_CType_Double
    8,            -- kUpb_CType_Int64
    8,            -- kUpb_CType_UInt64
    0,            -- kUpb_CType_String
    0 ]           -- kUpb_CType_Bytes

/-- The table `_upb_CTypeo_sizelg2[12]`. -/
def _upb_CTypeo_sizelg2 (A : Arch) : List Nat :=
  [ 0,
    0,                -- kUpb_CType_Bool
    2,                -- kUpb_CType_Float
    2,                -- kUpb_CType_Int32
    2,                -- kUpb_CType_UInt32
    2,                -- kUpb_CType_Enum
    UPB_SIZE A 2 3,   -- kUpb_CType_Message
    3,                -- kUpb_CType_Double
    3,                -- kUpb_CType_Int64
    3,                -- kUpb_CType_UInt64
    UPB_SIZE A 3 4,   -- kUpb_CType_String
    UPB_SIZE A 3 4 ]  -- kUpb_CType_Bytes

/-- The lookup `_upb_CTypeo_mapsize[type]`. -/
def mapsize (A : Arch) (type : upb_CType) : Nat := (_upb_CTypeo_mapsize A).getD type.toNat 0

/-- The lookup `_upb_CTypeo_sizelg2[type]`. -/
def sizelg2 (A : Arch) (type : upb_CType) : Nat := (_upb_CTypeo_sizelg2 A).getD type.toNat 0

/-! ## Bytes and raw memory -/

/-- One byte of memory. -/
abbrev Byte := Fin 256

/-- The `n` bytes of `m` that start at offset `off`. -/
def memRead (m : List Byte) (off n : Nat) : List Byte :=
  (List.range n).map fun k => m.getD (off + k) 0

/-- The block `m` with the bytes `src` stored from offset `off` on; the block
keeps its size. -/
def memWrite (m : List Byte) (off : Nat) (src : List Byte) : List Byte :=
  (List.range m.length).map fun k =>
    if off ≤ k ∧ k < off + src.length then src.getD (k - off) 0 else m.getD k 0

/-- The call `memcpy(dst + dOff, src + sOff, n)` between two distinct objects. -/
def memcpy (dst : List Byte) (dOff : Nat) (src : List Byte) (sOff n : Nat) : List Byte :=
  memWrite dst dOff (memRead src sOff n)

/-- The call `memmove(m + dOff, m + sOff, n)` inside one object: the bytes are
copied as if through a temporary buffer, so the ranges may overlap. -/
def memmove (m : List Byte) (dOff sOff n : Nat) : List Byte :=
  memWrite m dOff (memRead m sOff n)

/-! ## The arena (external collaborator) -/

/-- The state of an arena: a bump region `[head, tail)` of the address space,
and the content `fresh` that not-yet-allocated memory happens to have. -/
structure upb_Arena where
  head : Nat
  tail : Nat
  fresh : Nat → Byte

/-- The macro `UPB_ALIGN_UP(size, align)`. -/
def UPB_ALIGN_UP (size align : Nat) : Nat := (size + align - 1) / align * align

/-- Modelled from the spec: the arena primitive `allocate(min_size) -> buffer`
(`upb_Arena_Malloc`, not part of `collections.c`). It hands out the next
8-aligned block of the region, with unspecified content, and fails (`none`, the
null pointer) when the block does not fit in the region or in the address
space. Nothing is ever freed. -/
def upb_Arena_Malloc (A : Arch) (a : upb_Arena) (size : Nat) :
    Option (Nat × List Byte × upb_Arena) :=
  let ptr := UPB_ALIGN_UP a.head 8
  if 0 < ptr ∧ ptr + size ≤ a.tail ∧ ptr + size < A.sizeMod then
    some (ptr, (List.range size).map (fun k => a.fresh (ptr + k)),
          { a with head := ptr + size })
  else none

/-- Modelled from the spec: the arena primitive
`grow(buffer, old_size, new_size) -> buffer` (`upb_Arena_Realloc`, not part of
`collections.c`), which may relocate: a new block is allocated and the first
`min(old_size, new_size)` bytes of the old block are copied into it. -/
def upb_Arena_Realloc (A : Arch) (a : upb_Arena) (old : List Byte) (oldsize size : Nat) :
    Option (Nat × List Byte × upb_Arena) :=
  match upb_Arena_Malloc A a size with
  | none => none
  | some (ptr, block, a1) => some (ptr, memcpy block 0 old 0 (min oldsize size), a1)

/-! ## Values and arrays -/

/-- The union `upb_MessageValue`, as the bytes of its object representation.
Its members (`bool_val`, `int32_val`, `msg_val`, `str_val`, ...) all start at
offset 0. -/
abbrev upb_MessageValue := List Byte

/-- The value of `sizeof(upb_MessageValue)`: the largest member is either an
8-byte scalar or a string view (pointer and length). -/
def sizeof_MessageValue (A : Arch) : Nat := max 8 (2 * A.ptrBytes)

/-- Modelled from the spec: the struct `upb_Array` (declared outside
`collections.c`). `data` is the tagged pointer whose low 3 bits hold the log2
of the element width; `mem` is the block the untagged pointer addresses; `len`
is the element count; `size` is the capacity in elements. -/
structure upb_Array where
  data : Nat
  mem : List Byte
  len : Nat
  size : Nat
  deriving DecidableEq

/-- The representation invariant of an array: the tag is one of `0 .. 4`, the
length does not exceed the capacity, the block holds exactly `size` elements of
`1 << tag` bytes, and the block fits in the address space. -/
def upb_Array.WF (A : Arch) (arr : upb_Array) : Prop :=
  (arr.data &&& 7) ≤ 4 ∧ arr.len ≤ arr.size ∧
    arr.mem.length = arr.size <<< (arr.data &&& 7) ∧ arr.mem.length < A.sizeMod

instance (A : Arch) (arr : upb_Array) : Decidable (arr.WF A) := by
  unfold upb_Array.WF; exact inferInstance

/-- Modelled from the spec: `_upb_tag_arrptr(ptr, elem_size_lg2)` packs the tag
into the low bits of the 8-aligned block address. -/
def _upb_tag_arrptr (ptr elem_size_lg2 : Nat) : Nat := ptr ||| elem_size_lg2

/-- The accessors `_upb_array_ptr(arr)` / `_upb_array_constptr(arr)`: the block
at the untagged address `arr->data & ~7`. -/
def _upb_array_ptr (arr : upb_Array) : List Byte := arr.mem

/-- Modelled from the spec: `_upb_Array_New(a, init_size, elem_size_lg2)`
allocates capacity for `init_size` elements, tagged with the log2 width, with
length 0; `none` is the null result of a failed allocation. -/
def _upb_Array_New (A : Arch) (a : upb_Arena) (init_size elem_size_lg2 : Nat) :
    Option (upb_Array × upb_Arena) :=
  match upb_Arena_Malloc A a (init_size <<< elem_size_lg2) with
  | none => none
  | some (ptr, block, a1) =>
      some ({ data := _upb_tag_arrptr ptr elem_size_lg2, mem := block, len := 0,
              size := init_size }, a1)

/-- Modelled from the spec: growing the capacity to at least `min_size`
elements by a reallocation through the arena (the capacity at least doubles);
existing element bytes are preserved, and on failure the array is untouched. -/
def _upb_array_realloc (A : Arch) (arr : upb_Array) (min_size : Nat) (arena : upb_Arena) :
    Bool × upb_Array × upb_Arena :=
  let lg2 := arr.data &&& 7
  let new_size := max min_size (2 * arr.size)
  match upb_Arena_Realloc A arena (_upb_array_ptr arr) (arr.size <<< lg2) (new_size <<< lg2) with
  | none => (false, arr, arena)
  | some (ptr, block, arena1) =>
      (true, { arr with data := _upb_tag_arrptr ptr lg2, mem := block, size := new_size }, arena1)

/-- Modelled from the spec: `_upb_Array_Resize(arr, size, arena)` sets the
length to `size`, reallocating only when `size` exceeds the capacity; it
reports failure only when that reallocation fails, and then leaves the array
in its prior state. -/
def _upb_Array_Resize (A : Arch) (arr : upb_Array) (size : Nat) (arena : upb_Arena) :
    Bool × upb_Array × upb_Arena :=
  if arr.size < size then
    match _upb_array_realloc A arr size arena with
    | (false, arr1, arena1) => (false, arr1, arena1)
    | (true, arr1, arena1) => (true, { arr1 with len := size }, arena1)
  else (true, { arr with len := size }, arena)

/-- The function `upb_Array_New`. -/
def upb_Array_New (A : Arch) (a : upb_Arena) (type : upb_CType) : Option (upb_Array × upb_Arena) :=
  _upb_Array_New A a 4 (sizelg2 A type)

/-- The function `upb_Array_Get`. The parameter `ret` is the content of the
uninitialised local `ret` before the `memcpy`; `none` is a failed
`UPB_ASSERT`. -/
def upb_Array_Get (A : Arch) (arr : upb_Array) (i : Nat) (ret : upb_MessageValue) :
    Option upb_MessageValue :=
  let data := _upb_array_ptr arr
  let lg2 := arr.data &&& 7
  if i < arr.len then some (memcpy ret 0 data (shlw A i lg2) (1 <<< lg2)) else none

/-- The function `upb_Array_Set`; `none` is a failed `UPB_ASSERT`. -/
def upb_Array_Set (A : Arch) (arr : upb_Array) (i : Nat) (val : upb_MessageValue) :
    Option upb_Array :=
  let data := _upb_array_ptr arr
  let lg2 := arr.data &&& 7
  if i < arr.len then some { arr with mem := memcpy data (shlw A i lg2) val 0 (1 <<< lg2) }
  else none

/-- The function `upb_Array_Resize`. -/
def upb_Array_Resize (A : Arch) (arr : upb_Array) (size : Nat) (arena : upb_Arena) :
    Bool × upb_Array × upb_Arena :=
  _upb_Array_Resize A arr size arena

/-- The function `upb_Array_Append`; `none` is a failed `UPB_ASSERT` (inside
`upb_Array_Set`). -/
def upb_Array_Append (A : Arch) (arr : upb_Array) (val : upb_MessageValue) (arena : upb_Arena) :
    Option (Bool × upb_Array × upb_Arena) :=
  match upb_Array_Resize A arr (addw A arr.len 1) arena with
  | (false, arr1, arena1) => some (false, arr1, arena1)
  | (true, arr1, arena1) =>
      match upb_Array_Set A arr1 (subw A arr1.len 1) val with
      | none => none
      | some arr2 => some (true, arr2, arena1)

/-- The function `upb_Array_Move`. -/
def upb_Array_Move (A : Arch) (arr : upb_Array) (dst_idx src_idx count : Nat) : upb_Array :=
  let data := _upb_array_ptr arr
  let lg2 := arr.data &&& 7
  { arr with mem := memmove data (shlw A dst_idx lg2) (shlw A src_idx lg2) (shlw A count lg2) }

/-- The function `upb_Array_Insert`; `none` is a failed `UPB_ASSERT`. -/
def upb_Array_Insert (A : Arch) (arr : upb_Array) (i count : Nat) (arena : upb_Arena) :
    Option (Bool × upb_Array × upb_Arena) :=
  if ¬ (i ≤ arr.len) then none
  else if ¬ (addw A count arr.len ≥ count) then none
  else
    let oldsize := arr.len
    match upb_Array_Resize A arr (addw A arr.len count) arena with
    | (false, arr1, arena1) => some (false, arr1, arena1)
    | (true, arr1, arena1) =>
        some (true, upb_Array_Move A arr1 (addw A i count) i (subw A oldsize i), arena1)

/-- The function `upb_Array_Delete`; `none` is a failed `UPB_ASSERT`. -/
def upb_Array_Delete (A : Arch) (arr : upb_Array) (i count : Nat) : Option upb_Array :=
  let «end» := addw A i count
  if ¬ (i ≤ «end») then none
  else if ¬ («end» ≤ arr.len) then none
  else
    let arr1 := upb_Array_Move A arr i «end» (subw A arr.len «end»)
    some { arr1 with len := subw A arr1.len count }

/-- The element at index `i`: the `1 << lg2` bytes at offset `i << lg2`. -/
def upb_Array.elem (A : Arch) (arr : upb_Array) (i : Nat) : List Byte :=
  memRead arr.mem (shlw A i (arr.data &&& 7)) (1 <<< (arr.data &&& 7))

/-! ## Typed access to values, and concrete arrays used as test inputs -/

/-- The four bytes of the object representation of an `int32_t` (little endian). -/
def int32Bytes (x : Int) : List Byte :=
  let n := (x % 2 ^ 32).toNat
  [Fin.ofNat n, Fin.ofNat (n / 2 ^ 8), Fin.ofNat (n / 2 ^ 16), Fin.ofNat (n / 2 ^ 24)]

/-- A `upb_MessageValue` whose member `int32_val` is `x`; the bytes the member
does not cover are zero. -/
def upb_MessageValue.ofInt32 (A : Arch) (x : Int) : upb_MessageValue :=
  int32Bytes x ++ List.replicate (sizeof_MessageValue A - 4) 0

/-- An arena with room for 4 KiB whose unallocated memory holds the junk `fresh`. -/
def roomyArena (fresh : Nat → Byte) : upb_Arena := { head := 8, tail := 4096, fresh := fresh }

/-- An arena that cannot satisfy any further request. -/
def fullArena : upb_Arena := { head := 64, tail := 64, fresh := fun _ => 0 }

/-- An Int32 array (tag 2) of three elements with capacity four. -/
def int32Arr : upb_Array :=
  { data := 66, mem := [10, 0, 0, 0, 20, 0, 0, 0, 30, 0, 0, 0, 5, 6, 7, 8], len := 3, size := 4 }

/-- A full Int32 array (tag 2): four elements, capacity four. -/
def int32Full : upb_Array :=
  { data := 66, mem := [10, 0, 0, 0, 20, 0, 0, 0, 30, 0, 0, 0, 40, 0, 0, 0], len := 4, size := 4 }

/-- A value whose bytes beyond the first are not zero. -/
def wideValue : upb_MessageValue := [1, 2, 0, 0, 0, 0, 0, 0, 0, 0, 0, 0, 0, 0, 0, 0]

/-- The value that agrees with `wideValue` on its first byte only. -/
def narrowValue : upb_MessageValue := [1, 0, 0, 0, 0, 0, 0, 0, 0, 0, 0, 0, 0, 0, 0, 0]

/-- A zeroed return slot of 16 bytes. -/
def zeroValue : upb_MessageValue := List.replicate 16 0

/-- An arena with room whose unallocated memory is filled with the byte 170. -/
def junkArena : upb_Arena := roomyArena fun _ => 170

/-- The arena `junkArena` after one allocation of 32 bytes. -/
def junkArenaAfter : upb_Arena := { head := 40, tail := 4096, fresh := fun _ => 170 }

/-- The array `int32Arr` after `upb_Array_Insert(arr, 1, 2, junkArena)`: the
block was reallocated to capacity 8, slots 3 and 4 hold the old slots 1 and 2,
and the hole (slots 1 and 2) still holds stale bytes. -/
def int32Inserted : upb_Array :=
  { data := 10,
    mem := [10, 0, 0, 0, 20, 0, 0, 0, 30, 0, 0, 0, 20, 0, 0, 0, 30, 0, 0, 0,
            170, 170, 170, 170, 170, 170, 170, 170, 170, 170, 170, 170],
    len := 5, size := 8 }

/-- The array `int32Full` after `upb_Array_Append(arr, wideValue, junkArena)`. -/
def int32Appended : upb_Array :=
  { data := 10,
    mem := [10, 0, 0, 0, 20, 0, 0, 0, 30, 0, 0, 0, 40, 0, 0, 0, 1, 2, 0, 0,
            170, 170, 170, 170, 170, 170, 170, 170, 170, 170, 170, 170],
    len := 5, size := 8 }

/-- Storing the values `vals` into the consecutive slots `i, i + 1, ...` with
`upb_Array_Set`, one call per value. -/
def upb_Array_SetRange (A : Arch) (arr : upb_Array) (i : Nat) :
    List upb_MessageValue → Option upb_Array
  | [] => some arr
  | v :: vs =>
      match upb_Array_Set A arr i v with
      | none => none
      | some arr1 => upb_Array_SetRange A arr1 (i + 1) vs

/-- The values `upb_Array_Get` returns for slots 1 and 2 of `int32Full` when
the return slot is `zeroValue`. -/
def savedValues : List upb_MessageValue :=
  [[20, 0, 0, 0, 0, 0, 0, 0, 0, 0, 0, 0, 0, 0, 0, 0],
   [30, 0, 0, 0, 0, 0, 0, 0, 0, 0, 0, 0, 0, 0, 0, 0]]

/-- A new Int32 array as `upb_Array_New` carves it out of `junkArena`. -/
def int32Fresh : upb_Array :=
  { data := 10,
    mem := [170, 170, 170, 170, 170, 170, 170, 170, 170, 170, 170, 170, 170, 170, 170, 170],
    len := 0, size := 4 }

/-- The arena `junkArena` after one allocation of 16 bytes. -/
def junkArenaAfterNew : upb_Arena := { head := 24, tail := 4096, fresh := fun _ => 170 }

/-- Modelled from the spec: the marker `UPB_MAPTYPE_STRING`, the size class 0
that `_upb_CTypeo_mapsize` gives String and Bytes: such a key or value is a
string handle, not a fixed-width blob. -/
def UPB_MAPTYPE_STRING : Nat := 0

/-- Read-only memory that holds the string data the callers' handles point to.
It is memory the arena does not hand out; the blocks the table takes from the
arena for its key copies are added to it by `upb_Map.memory`. -/
abbrev Heap := Nat → Byte

/-- The machine word stored (little endian) at offset `off` of `v`. -/
def loadWord (A : Arch) (v : List Byte) (off : Nat) : Nat :=
  (List.range A.ptrBytes).foldr (fun k acc => (v.getD (off + k) 0).val + 256 * acc) 0

/-- The bytes of the machine word `n` (little endian). -/
def storeWord (A : Arch) (n : Nat) : List Byte :=
  (List.range A.ptrBytes).map fun k => Fin.ofNat (n / 256 ^ k)

/-- The struct `upb_StringView`: a pointer and a length. -/
structure upb_StringView where
  data : Nat
  size : Nat
  deriving DecidableEq

/-- The member `str_val` of a `upb_MessageValue`. -/
def upb_MessageValue.str_val (A : Arch) (v : upb_MessageValue) : upb_StringView :=
  { data := loadWord A v 0, size := loadWord A v A.ptrBytes }

/-- The object representation of a `upb_StringView`. -/
def upb_StringView.bytes (A : Arch) (s : upb_StringView) : List Byte :=
  storeWord A s.data ++ storeWord A s.size

/-- The string a handle addresses. -/
def Heap.read (heap : Heap) (s : upb_StringView) : List Byte :=
  (List.range s.size).map fun k => heap (s.data + k)

/-- Modelled from the spec: one entry of the keyed table engine: the key bytes
(the content of the table's own copy of the key), the address `keyptr` of that
copy, and the value payload. -/
structure upb_tabent where
  key : List Byte
  keyptr : Nat
  val : List Byte
  deriving DecidableEq

/-- Modelled from the spec: the keyed table engine (`upb_strtable`), an
associative structure keyed by raw byte strings. Only its interface
(insert, lookup, remove, iterate) is specified; the model keeps the entries
in iteration order. -/
structure upb_strtable where
  entries : List upb_tabent
  deriving DecidableEq

/-- Modelled from the spec: `lookup(table, key_bytes) -> optional value_bytes`. -/
def upb_strtable_lookup2 (t : upb_strtable) (key : List Byte) : Option (List Byte) :=
  (t.entries.find? fun e => e.key = key).map fun e => e.val

/-- Modelled from the spec: `remove(table, key_bytes) -> existed`. -/
def upb_strtable_remove2 (t : upb_strtable) (key : List Byte) : Bool × upb_strtable :=
  (t.entries.any fun e => e.key = key, { entries := t.entries.filter fun e => e.key ≠ key })

/-- Modelled from the spec: `insert(table, key_bytes, value_bytes) -> success`
for a key that is not in the table. The table keeps its own copy of the key
bytes in a block it takes from the arena (the entry records the block's
address) and fails when that allocation fails. -/
def upb_strtable_insert (A : Arch) (t : upb_strtable) (key val : List Byte) (a : upb_Arena) :
    Bool × upb_strtable × upb_Arena :=
  match upb_Arena_Malloc A a key.length with
  | none => (false, t, a)
  | some (ptr, _, a1) =>
      (true, { entries := t.entries ++ [{ key := key, keyptr := ptr, val := val }] }, a1)

/-- Modelled from the spec: the table's entry count. -/
def upb_strtable_count (t : upb_strtable) : Nat := t.entries.length

/-- The struct `upb_strtable_iter`: a table and a position in it. -/
structure upb_strtable_iter where
  t : upb_strtable
  index : Nat

/-- Modelled from the spec: `upb_strtable_done`, true once the position is past
the last entry. -/
def upb_strtable_done (i : upb_strtable_iter) : Bool := decide (i.t.entries.length ≤ i.index)

/-- Modelled from the spec: the entry at the iterator's position; at a position
that holds no entry the result is unspecified (here: the empty entry). -/
def upb_strtable_iter_entry (i : upb_strtable_iter) : upb_tabent :=
  i.t.entries.getD i.index { key := [], keyptr := 0, val := [] }

/-- Modelled from the spec: the struct `upb_Map`: the backing table and the two
widths fixed at construction. -/
structure upb_Map where
  key_size : Nat
  val_size : Nat
  table : upb_strtable
  deriving DecidableEq

/-- The string memory as it is while the map holds its entries: the callers'
memory `heap` with the table's copy of each key stored at its address. -/
def upb_Map.memory (map : upb_Map) (heap : Heap) : Heap := fun p =>
  match map.table.entries.find? fun e => e.keyptr ≤ p ∧ p < e.keyptr + e.key.length with
  | some e => e.key.getD (p - e.keyptr) 0
  | none => heap p

/-- The blocks that hold the table's key copies were handed out by the arena
one after the other: they follow each other in memory, lie below the arena's
first free byte, and fit in the address space. -/
def upb_strtable.KeysStored (A : Arch) (t : upb_strtable) (a : upb_Arena) : Prop :=
  t.entries.Pairwise (fun e1 e2 => e1.keyptr + e1.key.length ≤ e2.keyptr) ∧
    ∀ e ∈ t.entries, e.keyptr + e.key.length ≤ a.head ∧ e.keyptr + e.key.length < A.sizeMod

/-- Modelled from the spec: packing a key. A fixed-width key becomes a string
key of exactly `size` bytes; a string key is the string its handle addresses. -/
def _upb_map_tokey (A : Arch) (heap : Heap) (key : upb_MessageValue) (size : Nat) : List Byte :=
  if size = UPB_MAPTYPE_STRING then heap.read (upb_MessageValue.str_val A key)
  else memRead key 0 size

/-- Modelled from the spec: unpacking a key into `out`, the inverse of the
packing. A fixed-width key is copied out; a string key comes back as the
handle (address and length) of the table's copy, whose bytes are read through
`upb_Map.memory`. -/
def _upb_map_fromkey (A : Arch) (e : upb_tabent) (out : upb_MessageValue) (size : Nat) :
    upb_MessageValue :=
  if size = UPB_MAPTYPE_STRING then
    memWrite out 0 (upb_StringView.bytes A { data := e.keyptr, size := e.key.length })
  else memcpy out 0 e.key 0 size

/-- Modelled from the spec: packing a value into the table's payload: its
`size` fixed-width bytes, or the string handle for a string value. -/
def _upb_map_tovalue (A : Arch) (val : upb_MessageValue) (size : Nat) : List Byte :=
  if size = UPB_MAPTYPE_STRING then memRead val 0 (2 * A.ptrBytes) else memRead val 0 size

/-- Modelled from the spec: unpacking a payload into `out`, the inverse of the
packing. -/
def _upb_map_fromvalue (A : Arch) (tabval : List Byte) (out : upb_MessageValue) (size : Nat) :
    upb_MessageValue :=
  if size = UPB_MAPTYPE_STRING then memcpy out 0 tabval 0 (2 * A.ptrBytes)
  else memcpy out 0 tabval 0 size

/-- Modelled from the spec: `_upb_Map_New(a, key_size, value_size)`; an empty
table is constructed without allocation, so the call always succeeds. -/
def _upb_Map_New (_a : upb_Arena) (key_size value_size : Nat) : upb_Map :=
  { key_size := key_size, val_size := value_size, table := { entries := [] } }

/-- Modelled from the spec: `_upb_Map_Size`. -/
def _upb_Map_Size (map : upb_Map) : Nat := upb_strtable_count map.table

/-- Modelled from the spec: `_upb_Map_Get(map, key, key_size, val, val_size)`:
on a hit copies the value bytes into `*val` and reports found; on a miss
reports not-found and leaves `*val` alone. The result pairs the report with the
content of `*val` after the call. -/
def _upb_Map_Get (A : Arch) (heap : Heap) (map : upb_Map) (key : upb_MessageValue)
    (key_size : Nat) (val : upb_MessageValue) (val_size : Nat) : Bool × upb_MessageValue :=
  let k := _upb_map_tokey A heap key key_size
  match upb_strtable_lookup2 map.table k with
  | none => (false, val)
  | some tabval => (true, _upb_map_fromvalue A tabval val val_size)

/-- Modelled from the spec: `_upb_Map_Set(map, key, key_size, val, val_size, a)`,
an upsert: the entry of the key, if any, is replaced. It fails only when the
table's allocation fails, and then leaves the map as it was. -/
def _upb_Map_Set (A : Arch) (heap : Heap) (map : upb_Map) (key : upb_MessageValue)
    (key_size : Nat) (val : upb_MessageValue) (val_size : Nat) (a : upb_Arena) :
    Bool × upb_Map × upb_Arena :=
  let strkey := _upb_map_tokey A heap key key_size
  let tabval := _upb_map_tovalue A val val_size
  match upb_strtable_insert A (upb_strtable_remove2 map.table strkey).2 strkey tabval a with
  | (false, _, _) => (false, map, a)
  | (true, t, a1) => (true, { map with table := t }, a1)

/-- Modelled from the spec: `_upb_Map_Clear`: removes all entries. -/
def _upb_Map_Clear (map : upb_Map) : upb_Map := { map with table := { entries := [] } }

/-- Modelled from the spec: the reserved cursor value `kUpb_Map_Begin`
("not yet started"): the largest `size_t`, so that the first advance wraps to
position 0. -/
def kUpb_Map_Begin (A : Arch) : Nat := A.sizeMod - 1

/-- Modelled from the spec: `_upb_map_next(map, &iter)` advances the cursor to
the next entry in iteration order and reports whether there is one. The result
pairs the report with the cursor after the call. -/
def _upb_map_next (A : Arch) (map : upb_Map) (iter : Nat) : Bool × Nat :=
  let index := addw A iter 1
  (decide (index < upb_strtable_count map.table), index)

/-- The function `upb_Map_New`. -/
def upb_Map_New (A : Arch) (a : upb_Arena) (key_type value_type : upb_CType) : upb_Map :=
  _upb_Map_New a (mapsize A key_type) (mapsize A value_type)

/-- The function `upb_Map_Size`. -/
def upb_Map_Size (map : upb_Map) : Nat := _upb_Map_Size map

/-- The function `upb_Map_Get`; the second component is `*val` after the call. -/
def upb_Map_Get (A : Arch) (heap : Heap) (map : upb_Map) (key val : upb_MessageValue) :
    Bool × upb_MessageValue :=
  _upb_Map_Get A heap map key map.key_size val map.val_size

/-- The function `upb_Map_Clear`. -/
def upb_Map_Clear (map : upb_Map) : upb_Map := _upb_Map_Clear map

/-- The function `upb_Map_Set`. -/
def upb_Map_Set (A : Arch) (heap : Heap) (map : upb_Map) (key val : upb_MessageValue)
    (arena : upb_Arena) : Bool × upb_Map × upb_Arena :=
  _upb_Map_Set A heap map key map.key_size val map.val_size arena

/-- The function `upb_MapIterator_Next`; the second component is `*iter` after
the call. -/
def upb_MapIterator_Next (A : Arch) (map : upb_Map) (iter : Nat) : Bool × Nat :=
  _upb_map_next A map iter

/-- The function `upb_MapIterator_Done`; `none` is a failed `UPB_ASSERT`. -/
def upb_MapIterator_Done (A : Arch) (map : upb_Map) (iter : Nat) : Option Bool :=
  let i : upb_strtable_iter := { t := map.table, index := iter }
  if ¬ (iter ≠ kUpb_Map_Begin A) then none else some (upb_strtable_done i)

/-- The function `upb_MapIterator_Key`: the key of this entry of the map;
`ret` is the content of the uninitialised local before the copy. -/
def upb_MapIterator_Key (A : Arch) (map : upb_Map) (iter : Nat) (ret : upb_MessageValue) :
    upb_MessageValue :=
  let i : upb_strtable_iter := { t := map.table, index := iter }
  _upb_map_fromkey A (upb_strtable_iter_entry i) ret map.key_size

/-- The function `upb_MapIterator_Value`: the value of this entry of the map;
`ret` is the content of the uninitialised local before the copy. -/
def upb_MapIterator_Value (A : Arch) (map : upb_Map) (iter : Nat) (ret : upb_MessageValue) :
    upb_MessageValue :=
  let i : upb_strtable_iter := { t := map.table, index := iter }
  _upb_map_fromvalue A (upb_strtable_iter_entry i).val ret map.val_size

/-- The traversal `iter = kUpb_Map_Begin; while (upb_MapIterator_Next(map, &iter))
visit(iter, Key, Value)`, run for at most `fuel` calls of `Next`; the result is
the visited positions with their key and value and the final cursor, or `none`
when the fuel runs out first. -/
def upb_Map_traverse (A : Arch) (map : upb_Map) (ret : upb_MessageValue) :
    Nat → Nat → Option (List (Nat × upb_MessageValue × upb_MessageValue) × Nat)
  | 0, _ => none
  | fuel + 1, iter =>
      match upb_MapIterator_Next A map iter with
      | (false, iter1) => some ([], iter1)
      | (true, iter1) =>
          (upb_Map_traverse A map ret fuel iter1).map fun r =>
            ((iter1, upb_MapIterator_Key A map iter1 ret,
              upb_MapIterator_Value A map iter1 ret) :: r.1, r.2)

/-- A run of `upb_Map_Set` calls, one per pair, all of which must succeed. -/
def upb_Map_SetAll (A : Arch) (heap : Heap) :
    upb_Map → upb_Arena → List (upb_MessageValue × upb_MessageValue) →
      Option (upb_Map × upb_Arena)
  | map, arena, [] => some (map, arena)
  | map, arena, (k, v) :: kvs =>
      match upb_Map_Set A heap map k v arena with
      | (false, _, _) => none
      | (true, map1, arena1) => upb_Map_SetAll A heap map1 arena1 kvs

/-- Memory with the string "a" at address 5000 and the string "b" at 5001,
beyond the end of the arenas used below. -/
def abHeap : Heap := fun p => if p = 5000 then 97 else if p = 5001 then 98 else 0

/-- A value whose member `str_val` is the handle `(data, size)`. -/
def upb_MessageValue.ofStr (A : Arch) (data size : Nat) : upb_MessageValue :=
  upb_StringView.bytes A { data := data, size := size }

/-- A new `Bool -> Int32` map on the 64-bit target (key size 1, value size 4). -/
def boolInt32Map : upb_Map := upb_Map_New Arch.bits64 junkArena upb_CType.Bool upb_CType.Int32

/-- A new `Bool -> Bool` map on the 64-bit target (key size 1, value size 1). -/
def boolBoolMap : upb_Map := upb_Map_New Arch.bits64 junkArena upb_CType.Bool upb_CType.Bool

/-- The map `boolBoolMap` after `set(narrowValue, zeroValue)` and then
`set(narrowValue, v)`. -/
def overwrittenMap (v : upb_MessageValue) : Bool × upb_Map × upb_Arena :=
  let r := upb_Map_Set Arch.bits64 abHeap boolBoolMap narrowValue zeroValue junkArena
  upb_Map_Set Arch.bits64 abHeap r.2.1 narrowValue v r.2.2

/-- The map `boolInt32Map` after `set(narrowValue, 1)`. -/
def setOnce : Bool × upb_Map × upb_Arena :=
  upb_Map_Set Arch.bits64 abHeap boolInt32Map narrowValue
    (upb_MessageValue.ofInt32 Arch.bits64 1) junkArena

/-- The map `setOnce` after `set(zeroValue, 2)`, a key with another key byte. -/
def setTwice : Bool × upb_Map × upb_Arena :=
  upb_Map_Set Arch.bits64 abHeap setOnce.2.1 zeroValue
    (upb_MessageValue.ofInt32 Arch.bits64 2) setOnce.2.2

/-- The map `boolBoolMap` after `set(narrowValue, zeroValue)`. -/
def boolSetOnce : Bool × upb_Map × upb_Arena :=
  upb_Map_Set Arch.bits64 abHeap boolBoolMap narrowValue zeroValue junkArena

/-- A new `String -> Int32` map on the 64-bit target (key size 0, value size 4). -/
def strInt32Map : upb_Map := upb_Map_New Arch.bits64 junkArena upb_CType.String upb_CType.Int32

/-- The pairs `("a", 1)` and `("b", 2)`, the strings being those of `abHeap`. -/
def abPairs : List (upb_MessageValue × upb_MessageValue) :=
  [(upb_MessageValue.ofStr Arch.bits64 5000 1, upb_MessageValue.ofInt32 Arch.bits64 1),
   (upb_MessageValue.ofStr Arch.bits64 5001 1, upb_MessageValue.ofInt32 Arch.bits64 2)]

/-- The map `strInt32Map` after `set("a", 1)`. -/
def strSetOnce : Bool × upb_Map × upb_Arena :=
  upb_Map_Set Arch.bits64 abHeap strInt32Map (upb_MessageValue.ofStr Arch.bits64 5000 1)
    (upb_MessageValue.ofInt32 Arch.bits64 1) junkArena

/-- The map `strSetOnce` after `set("b", 2)`. -/
def strSetTwice : Bool × upb_Map × upb_Arena :=
  upb_Map_Set Arch.bits64 abHeap strSetOnce.2.1 (upb_MessageValue.ofStr Arch.bits64 5001 1)
    (upb_MessageValue.ofInt32 Arch.bits64 2) strSetOnce.2.2

/-! ## Byte-level lemmas -/

theorem length_memRead (m : List Byte) (off n : Nat) : (memRead m off n).length = n := by
  simp [memRead]

theorem getD_memRead (m : List Byte) (off n k : Nat) :
    (memRead m off n).getD k 0 = if k < n then m.getD (off + k) 0 else 0 := by
  unfold memRead
  by_cases h : k < n
  · simp [h, List.getElem?_range h]
  · have hn : (List.range n)[k]? = none := List.getElem?_eq_none (by simpa using h)
    simp [h, hn]

theorem length_memWrite (m : List Byte) (off : Nat) (src : List Byte) :
    (memWrite m off src).length = m.length := by
  simp [memWrite]

theorem getD_memWrite (m : List Byte) (off : Nat) (src : List Byte) (k : Nat) :
    (memWrite m off src).getD k 0 =
      if off ≤ k ∧ k < off + src.length ∧ k < m.length then src.getD (k - off) 0
      else m.getD k 0 := by
  unfold memWrite
  by_cases h : k < m.length
  · by_cases h1 : off ≤ k ∧ k < off + src.length
    · simp [h, h1, List.getElem?_range h]
    · have h2 : ¬ (off ≤ k ∧ k < off + src.length ∧ k < m.length) := fun hh => h1 ⟨hh.1, hh.2.1⟩
      simp only [h2, if_false]
      simp [h, h1, List.getElem?_range h]
  · have h2 : ¬ (off ≤ k ∧ k < off + src.length ∧ k < m.length) := fun hh => h hh.2.2
    simp only [h2, if_false]
    rw [List.getD_eq_default _ _ (by simpa using h), List.getD_eq_default _ _ (by simpa using h)]

theorem memRead_congr {m1 m2 : List Byte} {o1 o2 n : Nat}
    (h : ∀ b, b < n → m1.getD (o1 + b) 0 = m2.getD (o2 + b) 0) :
    memRead m1 o1 n = memRead m2 o2 n := by
  unfold memRead
  apply List.map_congr_left
  intro b hb
  exact h b (by simpa using hb)

theorem eq_of_getD_eq {l1 l2 : List Byte} (hl : l1.length = l2.length)
    (h : ∀ k, k < l1.length → l1.getD k 0 = l2.getD k 0) : l1 = l2 := by
  apply List.ext_getElem hl
  intro k h1 h2
  have := h k h1
  rwa [List.getD_eq_getElem _ _ h1, List.getD_eq_getElem _ _ h2] at this


theorem getD_memmove (m : List Byte) (D S N k : Nat) :
    (memmove m D S N).getD k 0 =
      if D ≤ k ∧ k < D + N ∧ k < m.length then m.getD (S + (k - D)) 0 else m.getD k 0 := by
  unfold memmove
  rw [getD_memWrite, length_memRead]
  by_cases h : D ≤ k ∧ k < D + N ∧ k < m.length
  · have h1 : k - D < N := by omega
    simp only [h, and_self, if_true, getD_memRead, h1]
  · simp only [h, if_false]

/-! ## Machine-word lemmas -/

theorem sizeMod_pos (A : Arch) : 0 < A.sizeMod := by
  unfold Arch.sizeMod; positivity

theorem addw_eq {A : Arch} {a b : Nat} (h : a + b < A.sizeMod) : addw A a b = a + b := by
  unfold addw; exact Nat.mod_eq_of_lt h

theorem subw_eq {A : Arch} {a b : Nat} (hb : b ≤ a) (ha : a < A.sizeMod) :
    subw A a b = a - b := by
  unfold subw
  have h1 : a + A.sizeMod - b = (a - b) + A.sizeMod := by omega
  rw [h1, Nat.add_mod_right]
  exact Nat.mod_eq_of_lt (by omega)

theorem shlw_eq {A : Arch} {a s : Nat} (h : a * 2 ^ s < A.sizeMod) :
    shlw A a s = a * 2 ^ s := by
  unfold shlw; rw [Nat.shiftLeft_eq]; exact Nat.mod_eq_of_lt h

theorem tag_of_tagged (q t : Nat) (ht : t < 8) : (_upb_tag_arrptr (q * 8) t) &&& 7 = t := by
  unfold _upb_tag_arrptr
  have h1 : q * 8 ||| t = 2 ^ 3 * q + t := by
    rw [Nat.mul_add_lt_is_or (by simpa using ht) q]; congr 1; omega
  have h2 : (7 : Nat) = 2 ^ 3 - 1 := by norm_num
  rw [h1, h2, Nat.and_pow_two_sub_one_eq_mod]
  omega

theorem tag_lt (d : Nat) : d &&& 7 < 8 := by
  have h2 : (7 : Nat) = 2 ^ 3 - 1 := by norm_num
  rw [h2, Nat.and_pow_two_sub_one_eq_mod]
  exact Nat.mod_lt _ (by norm_num)


/-! ## The resize contract -/

theorem malloc_spec {A : Arch} {a a1 : upb_Arena} {n ptr : Nat} {block : List Byte}
    (h : upb_Arena_Malloc A a n = some (ptr, block, a1)) :
    block.length = n ∧ n < A.sizeMod ∧ ∃ q, ptr = q * 8 := by
  unfold upb_Arena_Malloc at h
  simp only at h
  split at h
  · rename_i hc
    simp only [Option.some.injEq, Prod.mk.injEq] at h
    obtain ⟨h1, h2, _⟩ := h
    refine ⟨by rw [← h2]; simp, by omega, ⟨_, by rw [← h1]; rfl⟩⟩
  · exact absurd h (by simp)

theorem resize_fail {A : Arch} {arr arr1 : upb_Array} {n : Nat} {arena arena1 : upb_Arena}
    (h : _upb_Array_Resize A arr n arena = (false, arr1, arena1)) :
    arr1 = arr ∧ arena1 = arena := by
  unfold _upb_Array_Resize _upb_array_realloc upb_Arena_Realloc at h
  split at h
  · simp only at h
    cases hm : upb_Arena_Malloc A arena (max n (2 * arr.size) <<< (arr.data &&& 7)) with
    | none => rw [hm] at h; simp at h; exact ⟨h.1.symm, h.2.symm⟩
    | some r => obtain ⟨p, b, a1⟩ := r; rw [hm] at h; simp at h
  · simp at h

theorem resize_noalloc {A : Arch} {arr : upb_Array} {n : Nat} {arena : upb_Arena}
    (h : n ≤ arr.size) :
    _upb_Array_Resize A arr n arena = (true, { arr with len := n }, arena) := by
  unfold _upb_Array_Resize
  simp [Nat.not_lt.mpr h]

theorem resize_ok {A : Arch} {arr arr1 : upb_Array} {n : Nat} {arena arena1 : upb_Arena}
    (hwf : arr.WF A) (h : _upb_Array_Resize A arr n arena = (true, arr1, arena1)) :
    arr1.WF A ∧ arr1.len = n ∧ (arr1.data &&& 7) = (arr.data &&& 7) ∧
      arr.size ≤ arr1.size ∧
      ∀ k, k < arr.mem.length → arr1.mem.getD k 0 = arr.mem.getD k 0 := by
  obtain ⟨ht, hl, hm, hf⟩ := hwf
  unfold _upb_Array_Resize _upb_array_realloc upb_Arena_Realloc at h
  split at h
  · rename_i hlt
    simp only at h
    cases hmal : upb_Arena_Malloc A arena (max n (2 * arr.size) <<< (arr.data &&& 7)) with
    | none => rw [hmal] at h; simp at h
    | some r =>
      obtain ⟨p, b, a1⟩ := r
      rw [hmal] at h
      simp only [Prod.mk.injEq, true_and] at h
      obtain ⟨h1, _⟩ := h
      obtain ⟨hb, hlt2, q, hq⟩ := malloc_spec hmal
      have htag : (_upb_tag_arrptr p (arr.data &&& 7)) &&& 7 = arr.data &&& 7 := by
        rw [hq]; exact tag_of_tagged q _ (tag_lt _)
      subst h1
      refine ⟨⟨?_, ?_, ?_, ?_⟩, rfl, htag, ?_, ?_⟩
      · simp only [htag]; exact ht
      · simp only; exact le_max_left _ _
      · simp only [htag, memcpy, length_memWrite, hb]
      · simp only [memcpy, length_memWrite, hb]; exact hlt2
      · simp only; have := le_max_right n (2 * arr.size); omega
      · intro k hk
        simp only [memcpy, _upb_array_ptr]
        rw [getD_memWrite, length_memRead, getD_memRead]
        have hsz : arr.size <<< (arr.data &&& 7) ≤ max n (2 * arr.size) <<< (arr.data &&& 7) := by
          rw [Nat.shiftLeft_eq, Nat.shiftLeft_eq]
          apply Nat.mul_le_mul_right
          have := le_max_right n (2 * arr.size); omega
        have hmin : min (arr.size <<< (arr.data &&& 7)) (max n (2 * arr.size) <<< (arr.data &&& 7))
            = arr.mem.length := by rw [hm]; exact min_eq_left hsz
        rw [hmin]
        have hk2 : k < b.length := by rw [hb]; omega
        simp [hk, hk2]
  · rename_i hlt
    simp only [Prod.mk.injEq, true_and] at h
    obtain ⟨h1, _⟩ := h
    subst h1
    exact ⟨⟨ht, by simp only; omega, hm, hf⟩, rfl, rfl, le_refl _, fun _ _ => rfl⟩


/-! ## Element addressing -/

theorem one_shl (s : Nat) : 1 <<< s = 2 ^ s := by
  rw [Nat.shiftLeft_eq, Nat.one_mul]

theorem offset_eq {A : Arch} {arr : upb_Array} (hwf : arr.WF A) {j : Nat} (hj : j ≤ arr.size) :
    shlw A j (arr.data &&& 7) = j * 2 ^ (arr.data &&& 7) ∧
      j * 2 ^ (arr.data &&& 7) ≤ arr.mem.length := by
  obtain ⟨_, _, hm, hf⟩ := hwf
  rw [Nat.shiftLeft_eq] at hm
  have h1 : j * 2 ^ (arr.data &&& 7) ≤ arr.size * 2 ^ (arr.data &&& 7) :=
    Nat.mul_le_mul_right _ hj
  exact ⟨shlw_eq (by omega), by omega⟩

theorem move_byte {A : Arch} {arr : upb_Array} (hwf : arr.WF A) {d s c : Nat}
    (hd : d + c ≤ arr.size) (hs : s + c ≤ arr.size) (k : Nat) :
    (upb_Array_Move A arr d s c).mem.getD k 0 =
      if d * 2 ^ (arr.data &&& 7) ≤ k ∧ k < (d + c) * 2 ^ (arr.data &&& 7) then
        arr.mem.getD (s * 2 ^ (arr.data &&& 7) + (k - d * 2 ^ (arr.data &&& 7))) 0
      else arr.mem.getD k 0 := by
  unfold upb_Array_Move _upb_array_ptr
  simp only
  rw [(offset_eq hwf (show d ≤ arr.size by omega)).1,
    (offset_eq hwf (show s ≤ arr.size by omega)).1,
    (offset_eq hwf (show c ≤ arr.size by omega)).1, getD_memmove]
  have h1 := (offset_eq hwf hd).2
  have h2 : (d + c) * 2 ^ (arr.data &&& 7) =
      d * 2 ^ (arr.data &&& 7) + c * 2 ^ (arr.data &&& 7) := Nat.add_mul _ _ _
  by_cases h : d * 2 ^ (arr.data &&& 7) ≤ k ∧ k < (d + c) * 2 ^ (arr.data &&& 7)
  · have h3 : d * 2 ^ (arr.data &&& 7) ≤ k ∧
        k < d * 2 ^ (arr.data &&& 7) + c * 2 ^ (arr.data &&& 7) ∧ k < arr.mem.length := by omega
    simp only [h, h3, and_self, if_true]
  · have h3 : ¬ (d * 2 ^ (arr.data &&& 7) ≤ k ∧
        k < d * 2 ^ (arr.data &&& 7) + c * 2 ^ (arr.data &&& 7) ∧ k < arr.mem.length) := by omega
    simp only [h, h3, if_false]

theorem move_frame (A : Arch) (arr : upb_Array) (d s c : Nat) :
    (upb_Array_Move A arr d s c).data = arr.data ∧ (upb_Array_Move A arr d s c).len = arr.len ∧
      (upb_Array_Move A arr d s c).size = arr.size ∧
      (upb_Array_Move A arr d s c).mem.length = arr.mem.length := by
  unfold upb_Array_Move memmove
  simp [length_memWrite, _upb_array_ptr]

theorem move_wf {A : Arch} {arr : upb_Array} (hwf : arr.WF A) (d s c : Nat) :
    (upb_Array_Move A arr d s c).WF A := by
  obtain ⟨h1, h2, h3, h4⟩ := move_frame A arr d s c
  unfold upb_Array.WF
  rw [h1, h2, h3, h4]
  exact hwf

/-- Two elements are equal when their bytes agree; both arrays carry the same tag. -/
theorem elem_congr {A : Arch} {a1 a2 : upb_Array} (h1 : a1.WF A) (h2 : a2.WF A)
    (ht : (a1.data &&& 7) = (a2.data &&& 7)) {j1 j2 : Nat} (hj1 : j1 ≤ a1.size)
    (hj2 : j2 ≤ a2.size)
    (h : ∀ b, b < 2 ^ (a2.data &&& 7) →
      a1.mem.getD (j1 * 2 ^ (a2.data &&& 7) + b) 0 = a2.mem.getD (j2 * 2 ^ (a2.data &&& 7) + b) 0) :
    a1.elem A j1 = a2.elem A j2 := by
  unfold upb_Array.elem
  rw [(offset_eq h1 hj1).1, (offset_eq h2 hj2).1, one_shl, one_shl, ht]
  exact memRead_congr h

theorem move_elem {A : Arch} {arr : upb_Array} (hwf : arr.WF A) {d s c k : Nat}
    (hd : d + c ≤ arr.size) (hs : s + c ≤ arr.size) (hk : k < c) :
    (upb_Array_Move A arr d s c).elem A (d + k) = arr.elem A (s + k) := by
  have hfr := move_frame A arr d s c
  apply elem_congr (move_wf hwf d s c) hwf (by rw [hfr.1]) (by rw [hfr.2.2.1]; omega) (by omega)
  intro b hb
  rw [move_byte hwf hd hs]
  have e1 : (d + k) * 2 ^ (arr.data &&& 7) =
      d * 2 ^ (arr.data &&& 7) + k * 2 ^ (arr.data &&& 7) := Nat.add_mul _ _ _
  have e2 : (s + k) * 2 ^ (arr.data &&& 7) =
      s * 2 ^ (arr.data &&& 7) + k * 2 ^ (arr.data &&& 7) := Nat.add_mul _ _ _
  have e3 : (d + c) * 2 ^ (arr.data &&& 7) =
      d * 2 ^ (arr.data &&& 7) + c * 2 ^ (arr.data &&& 7) := Nat.add_mul _ _ _
  have e4 : (k + 1) * 2 ^ (arr.data &&& 7) ≤ c * 2 ^ (arr.data &&& 7) :=
    Nat.mul_le_mul_right _ hk
  have e5 : (k + 1) * 2 ^ (arr.data &&& 7) =
      k * 2 ^ (arr.data &&& 7) + 2 ^ (arr.data &&& 7) := by rw [Nat.add_mul, Nat.one_mul]
  have hc : d * 2 ^ (arr.data &&& 7) ≤ (d + k) * 2 ^ (arr.data &&& 7) + b ∧
      (d + k) * 2 ^ (arr.data &&& 7) + b < (d + c) * 2 ^ (arr.data &&& 7) := by omega
  rw [if_pos hc]
  congr 1
  omega

theorem move_elem_other {A : Arch} {arr : upb_Array} (hwf : arr.WF A) {d s c j : Nat}
    (hd : d + c ≤ arr.size) (hs : s + c ≤ arr.size) (hj : j < arr.size)
    (hout : j < d ∨ d + c ≤ j) :
    (upb_Array_Move A arr d s c).elem A j = arr.elem A j := by
  have hfr := move_frame A arr d s c
  apply elem_congr (move_wf hwf d s c) hwf (by rw [hfr.1]) (by rw [hfr.2.2.1]; omega) (by omega)
  intro b hb
  rw [move_byte hwf hd hs]
  have e5 : (j + 1) * 2 ^ (arr.data &&& 7) =
      j * 2 ^ (arr.data &&& 7) + 2 ^ (arr.data &&& 7) := by rw [Nat.add_mul, Nat.one_mul]
  have hc : ¬ (d * 2 ^ (arr.data &&& 7) ≤ j * 2 ^ (arr.data &&& 7) + b ∧
      j * 2 ^ (arr.data &&& 7) + b < (d + c) * 2 ^ (arr.data &&& 7)) := by
    rcases hout with h | h
    · have e4 : (j + 1) * 2 ^ (arr.data &&& 7) ≤ d * 2 ^ (arr.data &&& 7) :=
        Nat.mul_le_mul_right _ h
      omega
    · have e4 : (d + c) * 2 ^ (arr.data &&& 7) ≤ j * 2 ^ (arr.data &&& 7) :=
        Nat.mul_le_mul_right _ h
      omega
  rw [if_neg hc]


/-! ## Reading and writing one slot -/

theorem getD_memcpy (dst : List Byte) (dOff : Nat) (src : List Byte) (sOff n k : Nat) :
    (memcpy dst dOff src sOff n).getD k 0 =
      if dOff ≤ k ∧ k < dOff + n ∧ k < dst.length then src.getD (sOff + (k - dOff)) 0
      else dst.getD k 0 := by
  unfold memcpy
  rw [getD_memWrite, length_memRead]
  by_cases h : dOff ≤ k ∧ k < dOff + n ∧ k < dst.length
  · have h1 : k - dOff < n := by omega
    simp only [h, and_self, if_true, getD_memRead, h1]
  · simp only [h, if_false]

theorem getD_take_append_drop (v ret : List Byte) (w k : Nat) (hv : w ≤ v.length) :
    (v.take w ++ ret.drop w).getD k 0 = if k < w then v.getD k 0 else ret.getD k 0 := by
  by_cases h : k < w
  · simp only [h, if_true, List.getD_eq_getElem?_getD]
    rw [List.getElem?_append_left (by simp; omega), List.getElem?_take_of_lt h]
  · simp only [h, if_false, List.getD_eq_getElem?_getD]
    rw [List.getElem?_append_right (by simp; omega), List.getElem?_drop]
    congr 2
    simp
    omega

theorem get_some {A : Arch} {arr : upb_Array} {i : Nat} (ret : upb_MessageValue)
    (hi : i < arr.len) :
    upb_Array_Get A arr i ret = some (memWrite ret 0 (arr.elem A i)) := by
  simp [upb_Array_Get, hi, memcpy, upb_Array.elem, _upb_array_ptr]

theorem set_spec {A : Arch} {arr : upb_Array} (hwf : arr.WF A) {i : Nat} (hi : i < arr.len)
    (v : upb_MessageValue) :
    ∃ arr1, upb_Array_Set A arr i v = some arr1 ∧ arr1.WF A ∧ arr1.data = arr.data ∧
      arr1.len = arr.len ∧ arr1.size = arr.size ∧
      ∀ k, arr1.mem.getD k 0 =
        if i * 2 ^ (arr.data &&& 7) ≤ k ∧ k < (i + 1) * 2 ^ (arr.data &&& 7) then
          v.getD (k - i * 2 ^ (arr.data &&& 7)) 0
        else arr.mem.getD k 0 := by
  refine ⟨⟨arr.data, memcpy (_upb_array_ptr arr) (shlw A i (arr.data &&& 7)) v 0
      (1 <<< (arr.data &&& 7)), arr.len, arr.size⟩,
    by simp only [upb_Array_Set, hi, if_true], ?_, rfl, rfl, rfl, ?_⟩
  · obtain ⟨h1, h2, h3, h4⟩ := hwf
    exact ⟨h1, h2, by simp only [memcpy, length_memWrite, _upb_array_ptr]; exact h3,
      by simp only [memcpy, length_memWrite, _upb_array_ptr]; exact h4⟩
  · intro k
    have hle : i + 1 ≤ arr.size := by have := hwf.2.1; omega
    simp only [_upb_array_ptr]
    rw [getD_memcpy, (offset_eq hwf (show i ≤ arr.size by omega)).1, one_shl]
    have h1 := (offset_eq hwf hle).2
    have e5 : (i + 1) * 2 ^ (arr.data &&& 7) =
        i * 2 ^ (arr.data &&& 7) + 2 ^ (arr.data &&& 7) := by rw [Nat.add_mul, Nat.one_mul]
    by_cases h : i * 2 ^ (arr.data &&& 7) ≤ k ∧ k < (i + 1) * 2 ^ (arr.data &&& 7)
    · have h3 : i * 2 ^ (arr.data &&& 7) ≤ k ∧
          k < i * 2 ^ (arr.data &&& 7) + 2 ^ (arr.data &&& 7) ∧ k < arr.mem.length := by omega
      simp only [h, h3, and_self, if_true, Nat.zero_add]
    · have h3 : ¬ (i * 2 ^ (arr.data &&& 7) ≤ k ∧
          k < i * 2 ^ (arr.data &&& 7) + 2 ^ (arr.data &&& 7) ∧ k < arr.mem.length) := by omega
      simp only [h, h3, if_false]

theorem elem_getD {A : Arch} {arr : upb_Array} (hwf : arr.WF A) {j : Nat} (hj : j ≤ arr.size)
    (b : Nat) :
    (arr.elem A j).getD b 0 =
      if b < 2 ^ (arr.data &&& 7) then arr.mem.getD (j * 2 ^ (arr.data &&& 7) + b) 0 else 0 := by
  unfold upb_Array.elem
  rw [(offset_eq hwf hj).1, one_shl, getD_memRead]

theorem length_elem (A : Arch) (arr : upb_Array) (j : Nat) :
    (arr.elem A j).length = 2 ^ (arr.data &&& 7) := by
  unfold upb_Array.elem
  rw [length_memRead, one_shl]

/-- After a store to slot `i`, that slot holds the low bytes of the value and
every other slot of the block is untouched. -/
theorem set_elem {A : Arch} {arr arr1 : upb_Array} (hwf : arr.WF A) {i : Nat} (hi : i < arr.len)
    {v : upb_MessageValue} (h : upb_Array_Set A arr i v = some arr1) :
    arr1.elem A i = memRead v 0 (2 ^ (arr.data &&& 7)) ∧
      ∀ j, j < arr.size → j ≠ i → arr1.elem A j = arr.elem A j := by
  obtain ⟨a, ha, hwf1, hd, hl, hs, hb⟩ := set_spec hwf hi v
  rw [ha] at h
  cases h
  have e5 : ∀ j, (j + 1) * 2 ^ (arr.data &&& 7) =
      j * 2 ^ (arr.data &&& 7) + 2 ^ (arr.data &&& 7) := fun j => by
    rw [Nat.add_mul, Nat.one_mul]
  constructor
  · apply eq_of_getD_eq (by rw [length_elem, length_memRead, hd])
    intro k hk
    rw [length_elem, hd] at hk
    rw [elem_getD hwf1 (by have := hwf.2.1; omega), getD_memRead, hd, hb]
    have := e5 i
    have hc : i * 2 ^ (arr.data &&& 7) ≤ i * 2 ^ (arr.data &&& 7) + k ∧
        i * 2 ^ (arr.data &&& 7) + k < (i + 1) * 2 ^ (arr.data &&& 7) := by omega
    simp only [hk, hc, and_self, if_true, Nat.zero_add, Nat.add_sub_cancel_left]
  · intro j hj hne
    apply elem_congr hwf1 hwf (by rw [hd]) (by omega) (by omega)
    intro b hb2
    rw [hb]
    have := e5 i
    have := e5 j
    have hc : ¬ (i * 2 ^ (arr.data &&& 7) ≤ j * 2 ^ (arr.data &&& 7) + b ∧
        j * 2 ^ (arr.data &&& 7) + b < (i + 1) * 2 ^ (arr.data &&& 7)) := by
      rcases Nat.lt_or_gt_of_ne hne with h | h
      · have e4 : (j + 1) * 2 ^ (arr.data &&& 7) ≤ i * 2 ^ (arr.data &&& 7) :=
          Nat.mul_le_mul_right _ h
        omega
      · have e4 : (i + 1) * 2 ^ (arr.data &&& 7) ≤ j * 2 ^ (arr.data &&& 7) :=
          Nat.mul_le_mul_right _ h
        omega
    rw [if_neg hc]

/-- The value a read returns: the slot's bytes in front of the tail of the
return slot. -/
theorem memWrite_zero_eq (ret src : List Byte) (v : List Byte) (w : Nat) (hsrc : src = memRead v 0 w)
    (hv : w ≤ v.length) (hret : w ≤ ret.length) :
    memWrite ret 0 src = v.take w ++ ret.drop w := by
  subst hsrc
  apply eq_of_getD_eq
  · simp [length_memWrite]; omega
  · intro k hk
    rw [length_memWrite] at hk
    rw [getD_memWrite, length_memRead, getD_memRead, getD_take_append_drop _ _ _ _ hv]
    by_cases h : k < w
    · have h2 : 0 ≤ k ∧ k < 0 + w ∧ k < ret.length := by omega
      simp [h, h2]
    · have h2 : ¬ (0 ≤ k ∧ k < 0 + w ∧ k < ret.length) := by omega
      simp only [h, h2, if_false]


/-! ## Insert, delete and append in terms of resize and move -/

theorem size_lt {A : Arch} {arr : upb_Array} (hwf : arr.WF A) : arr.size < A.sizeMod := by
  have h := (offset_eq hwf (le_refl arr.size)).2
  have h2 : arr.size * 1 ≤ arr.size * 2 ^ (arr.data &&& 7) :=
    Nat.mul_le_mul_left _ (Nat.one_le_two_pow)
  have := hwf.2.2.2
  omega

theorem addw_no_overflow {A : Arch} {a b : Nat} (hb : b < A.sizeMod) (h : a ≤ addw A a b) :
    a + b < A.sizeMod := by
  by_contra hc
  have hlt : addw A a b < A.sizeMod := Nat.mod_lt _ (sizeMod_pos A)
  by_cases ha : a < A.sizeMod
  · have : addw A a b = a + b - A.sizeMod := by
      unfold addw
      rw [Nat.mod_eq_sub_mod (by omega)]
      exact Nat.mod_eq_of_lt (by omega)
    omega
  · omega

theorem elem_with_len (A : Arch) (arr : upb_Array) (l j : Nat) :
    ({ arr with len := l } : upb_Array).elem A j = arr.elem A j := rfl

theorem wf_with_len {A : Arch} {arr : upb_Array} (hwf : arr.WF A) {l : Nat} (hl : l ≤ arr.size) :
    ({ arr with len := l } : upb_Array).WF A :=
  ⟨hwf.1, hl, hwf.2.2.1, hwf.2.2.2⟩

theorem delete_eq {A : Arch} {arr : upb_Array} (hwf : arr.WF A) {i count : Nat}
    (h : i + count ≤ arr.len) :
    upb_Array_Delete A arr i count =
      some { upb_Array_Move A arr i (i + count) (arr.len - (i + count)) with
        len := arr.len - count } := by
  have hs := size_lt hwf
  have hl := hwf.2.1
  unfold upb_Array_Delete
  simp only
  rw [addw_eq (show i + count < A.sizeMod by omega)]
  rw [if_neg (by omega), if_neg (by omega)]
  rw [(move_frame A arr i (i + count) (subw A arr.len (i + count))).2.1]
  rw [subw_eq (by omega) (by omega), subw_eq (by omega) (by omega)]

theorem insert_eq {A : Arch} {arr : upb_Array} {i count : Nat} (arena : upb_Arena)
    (hi : i ≤ arr.len) (hov : arr.len + count < A.sizeMod) :
    upb_Array_Insert A arr i count arena =
      match _upb_Array_Resize A arr (arr.len + count) arena with
      | (false, arr1, arena1) => some (false, arr1, arena1)
      | (true, arr1, arena1) =>
          some (true, upb_Array_Move A arr1 (i + count) i (arr.len - i), arena1) := by
  unfold upb_Array_Insert upb_Array_Resize
  have h1 : addw A count arr.len = count + arr.len := addw_eq (by omega)
  rw [if_neg (by omega), h1, if_neg (by omega)]
  simp only
  rw [addw_eq hov, addw_eq (show i + count < A.sizeMod by omega),
    subw_eq hi (by omega)]

theorem insert_success {A : Arch} {arr arr2 : upb_Array} {i count : Nat}
    {arena arena2 : upb_Arena} (hwf : arr.WF A)
    (h : upb_Array_Insert A arr i count arena = some (true, arr2, arena2)) :
    i ≤ arr.len ∧ arr.len + count < A.sizeMod ∧
      ∃ arr1, _upb_Array_Resize A arr (arr.len + count) arena = (true, arr1, arena2) ∧
        arr2 = upb_Array_Move A arr1 (i + count) i (arr.len - i) := by
  have hs := size_lt hwf
  have hl := hwf.2.1
  by_cases hi : i ≤ arr.len
  · by_cases hc : count ≤ addw A count arr.len
    · have hov : arr.len + count < A.sizeMod := by
        have := addw_no_overflow (show arr.len < A.sizeMod by omega) hc
        omega
      rw [insert_eq arena hi hov] at h
      refine ⟨hi, hov, ?_⟩
      rcases hres : _upb_Array_Resize A arr (arr.len + count) arena with ⟨b, a1, ar1⟩
      rw [hres] at h
      cases b
      · simp at h
      · simp only [Option.some.injEq, Prod.mk.injEq, true_and] at h
        exact ⟨a1, by rw [h.2], h.1.symm⟩
    · unfold upb_Array_Insert at h
      rw [if_neg (by omega), if_pos (by omega)] at h
      exact absurd h (by simp)
  · unfold upb_Array_Insert at h
    rw [if_pos hi] at h
    exact absurd h (by simp)

theorem resize_elem {A : Arch} {arr arr1 : upb_Array} {n : Nat} {arena arena1 : upb_Arena}
    (hwf : arr.WF A) (h : _upb_Array_Resize A arr n arena = (true, arr1, arena1)) {j : Nat}
    (hj : j < arr.size) : arr1.elem A j = arr.elem A j := by
  obtain ⟨hwf1, _, ht, hsz, hb⟩ := resize_ok hwf h
  apply elem_congr hwf1 hwf ht (by omega) (by omega)
  intro b hb2
  apply hb
  have e4 : (j + 1) * 2 ^ (arr.data &&& 7) ≤ arr.size * 2 ^ (arr.data &&& 7) :=
    Nat.mul_le_mul_right _ hj
  have e5 : (j + 1) * 2 ^ (arr.data &&& 7) =
      j * 2 ^ (arr.data &&& 7) + 2 ^ (arr.data &&& 7) := by rw [Nat.add_mul, Nat.one_mul]
  have := (offset_eq hwf (le_refl arr.size)).2
  omega

/-- What a successful insert leaves behind. -/
theorem insert_spec {A : Arch} {arr arr2 : upb_Array} {i count : Nat}
    {arena arena2 : upb_Arena} (hwf : arr.WF A)
    (h : upb_Array_Insert A arr i count arena = some (true, arr2, arena2)) :
    arr2.WF A ∧ (arr2.data &&& 7) = (arr.data &&& 7) ∧ arr2.len = arr.len + count ∧
      (∀ j, j < i → arr2.elem A j = arr.elem A j) ∧
      (∀ k, k < arr.len - i → arr2.elem A (i + count + k) = arr.elem A (i + k)) := by
  obtain ⟨hi, hov, arr1, hres, rfl⟩ := insert_success hwf h
  obtain ⟨hwf1, hl1, ht, hsz, _⟩ := resize_ok hwf hres
  have hl := hwf.2.1
  have hl1s := hwf1.2.1
  have hfr := move_frame A arr1 (i + count) i (arr.len - i)
  have hd : i + count + (arr.len - i) ≤ arr1.size := by omega
  have hs : i + (arr.len - i) ≤ arr1.size := by omega
  refine ⟨move_wf hwf1 _ _ _, by rw [hfr.1, ht], by rw [hfr.2.1, hl1], ?_, ?_⟩
  · intro j hj
    rw [move_elem_other hwf1 hd hs (by omega) (Or.inl (by omega))]
    exact resize_elem hwf hres (by omega)
  · intro k hk
    rw [move_elem hwf1 hd hs hk]
    exact resize_elem hwf hres (by omega)

/-- What a delete leaves behind. -/
theorem delete_spec {A : Arch} {arr : upb_Array} (hwf : arr.WF A) {i count : Nat}
    (h : i + count ≤ arr.len) :
    ∃ arr1, upb_Array_Delete A arr i count = some arr1 ∧ arr1.WF A ∧
      arr1.data = arr.data ∧ arr1.size = arr.size ∧ arr1.len = arr.len - count ∧
      (∀ j, j < i → arr1.elem A j = arr.elem A j) ∧
      (∀ k, k < arr.len - (i + count) → arr1.elem A (i + k) = arr.elem A (i + count + k)) ∧
      (∀ j, arr.len - count ≤ j → j < arr.size → arr1.elem A j = arr.elem A j) := by
  have hl := hwf.2.1
  have hfr := move_frame A arr i (i + count) (arr.len - (i + count))
  have hd : i + (arr.len - (i + count)) ≤ arr.size := by omega
  have hs : i + count + (arr.len - (i + count)) ≤ arr.size := by omega
  refine ⟨_, delete_eq hwf h, wf_with_len (move_wf hwf _ _ _) (by rw [hfr.2.2.1]; omega),
    hfr.1, hfr.2.2.1, rfl, ?_, ?_, ?_⟩
  · intro j hj
    rw [elem_with_len]
    exact move_elem_other hwf hd hs (by omega) (Or.inl hj)
  · intro k hk
    rw [elem_with_len]
    exact move_elem hwf hd hs hk
  · intro j hj1 hj2
    rw [elem_with_len]
    exact move_elem_other hwf hd hs hj2 (Or.inr (by omega))

/-! ## Append, and storing a run of values -/

theorem append_success {A : Arch} {arr arr2 : upb_Array} {v : upb_MessageValue}
    {arena arena2 : upb_Arena} (hwf : arr.WF A)
    (h : upb_Array_Append A arr v arena = some (true, arr2, arena2)) :
    ∃ arr1, _upb_Array_Resize A arr (arr.len + 1) arena = (true, arr1, arena2) ∧
      upb_Array_Set A arr1 arr.len v = some arr2 := by
  have hs := size_lt hwf
  have hl := hwf.2.1
  unfold upb_Array_Append upb_Array_Resize at h
  by_cases hov : arr.len + 1 < A.sizeMod
  · rw [addw_eq hov] at h
    rcases hres : _upb_Array_Resize A arr (arr.len + 1) arena with ⟨b, a1, ar1⟩
    rw [hres] at h
    cases b
    · simp at h
    · have hl1 := (resize_ok hwf hres).2.1
      simp only at h
      rw [hl1, subw_eq (by omega) hov, Nat.add_sub_cancel] at h
      cases hset : upb_Array_Set A a1 arr.len v with
      | none => rw [hset] at h; simp at h
      | some a2 =>
        rw [hset] at h
        simp only [Option.some.injEq, Prod.mk.injEq, true_and] at h
        exact ⟨a1, by rw [h.2], by rw [hset, h.1]⟩
  · have h0 : addw A arr.len 1 = 0 := by
      unfold addw
      have : arr.len + 1 = A.sizeMod := by omega
      rw [this, Nat.mod_self]
    rw [h0, resize_noalloc (Nat.zero_le _)] at h
    simp [upb_Array_Set] at h

theorem append_of_resize_set {A : Arch} {arr arr1 arr2 : upb_Array} {v : upb_MessageValue}
    {arena arena2 : upb_Arena} (hwf : arr.WF A)
    (hres : _upb_Array_Resize A arr (arr.len + 1) arena = (true, arr1, arena2))
    (hset : upb_Array_Set A arr1 arr.len v = some arr2) :
    upb_Array_Append A arr v arena = some (true, arr2, arena2) := by
  obtain ⟨hwf1, hl1, _⟩ := resize_ok hwf hres
  have hs := size_lt hwf1
  have hl := hwf1.2.1
  have hov : arr.len + 1 < A.sizeMod := by omega
  unfold upb_Array_Append upb_Array_Resize
  rw [addw_eq hov, hres]
  simp only
  rw [hl1, subw_eq (by omega) hov, Nat.add_sub_cancel, hset]

/-- What a successful append leaves behind. -/
theorem append_spec {A : Arch} {arr arr2 : upb_Array} {v : upb_MessageValue}
    {arena arena2 : upb_Arena} (hwf : arr.WF A)
    (h : upb_Array_Append A arr v arena = some (true, arr2, arena2)) :
    arr2.WF A ∧ (arr2.data &&& 7) = (arr.data &&& 7) ∧ arr2.len = arr.len + 1 ∧
      arr2.elem A arr.len = memRead v 0 (2 ^ (arr.data &&& 7)) ∧
      ∀ j, j < arr.len → arr2.elem A j = arr.elem A j := by
  obtain ⟨arr1, hres, hset⟩ := append_success hwf h
  obtain ⟨hwf1, hl1, ht, hsz, _⟩ := resize_ok hwf hres
  have hi : arr.len < arr1.len := by omega
  obtain ⟨a, ha, hwf2, hd, hl2, hs2, _⟩ := set_spec hwf1 hi v
  rw [hset] at ha
  cases ha
  have hl := hwf.2.1
  have hl1s := hwf1.2.1
  obtain ⟨e1, e2⟩ := set_elem hwf1 hi hset
  refine ⟨hwf2, by rw [hd, ht], by rw [hl2, hl1], by rw [e1, ht], ?_⟩
  intro j hj
  rw [e2 j (by omega) (by omega)]
  exact resize_elem hwf hres (by omega)

theorem setRange_spec {A : Arch} (vals : List upb_MessageValue) :
    ∀ (arr : upb_Array) (i : Nat), arr.WF A → i + vals.length ≤ arr.len →
      ∃ arr1, upb_Array_SetRange A arr i vals = some arr1 ∧ arr1.WF A ∧
        arr1.data = arr.data ∧ arr1.len = arr.len ∧ arr1.size = arr.size ∧
        (∀ t, t < vals.length →
          arr1.elem A (i + t) = memRead (vals.getD t []) 0 (2 ^ (arr.data &&& 7))) ∧
        (∀ j, j < arr.size → (j < i ∨ i + vals.length ≤ j) → arr1.elem A j = arr.elem A j) := by
  induction vals with
  | nil =>
    intro arr i hwf _
    exact ⟨arr, rfl, hwf, rfl, rfl, rfl, fun t ht => absurd ht (by simp), fun _ _ _ => rfl⟩
  | cons v vs ih =>
    intro arr i hwf hlen
    simp only [List.length_cons] at hlen
    have hi : i < arr.len := by omega
    obtain ⟨a1, hset, hwf1, hd1, hl1, hs1, _⟩ := set_spec hwf hi v
    obtain ⟨e1, e2⟩ := set_elem hwf hi hset
    obtain ⟨a2, hrun, hwf2, hd2, hl2, hs2, f1, f2⟩ := ih a1 (i + 1) hwf1 (by omega)
    have hl := hwf.2.1
    refine ⟨a2, by simp only [upb_Array_SetRange, hset]; exact hrun, hwf2, by rw [hd2, hd1],
      by rw [hl2, hl1], by rw [hs2, hs1], ?_, ?_⟩
    · intro t ht
      cases t with
      | zero =>
        rw [Nat.add_zero, f2 i (by omega) (Or.inl (by omega)), e1]
        rfl
      | succ t =>
        simp only [List.length_cons] at ht
        have := f1 t (by omega)
        rw [hd1] at this
        rw [show i + (t + 1) = i + 1 + t by omega, this]
        rfl
    · intro j hj hout
      simp only [List.length_cons] at hout
      rw [f2 j (by omega) (by omega), e2 j hj (by omega)]

theorem memRead_memWrite_zero (ret e : List Byte) (h : e.length ≤ ret.length) :
    memRead (memWrite ret 0 e) 0 e.length = e := by
  apply eq_of_getD_eq (length_memRead _ _ _)
  intro k hk
  rw [length_memRead] at hk
  rw [getD_memRead, getD_memWrite]
  have h2 : 0 ≤ k ∧ k < 0 + e.length ∧ k < ret.length := by omega
  rw [if_pos hk, Nat.zero_add, if_pos h2, Nat.sub_zero]

/-! ## Construction, and operations that stay within the capacity -/

theorem sizelg2_le (A : Arch) (type : upb_CType) : sizelg2 A type ≤ 4 := by
  cases A <;> cases type <;> decide

theorem new_spec {A : Arch} {a a1 : upb_Arena} {type : upb_CType} {arr : upb_Array}
    (h : upb_Array_New A a type = some (arr, a1)) :
    arr.WF A ∧ arr.len = 0 ∧ arr.size = 4 ∧ (arr.data &&& 7) = sizelg2 A type := by
  unfold upb_Array_New _upb_Array_New at h
  cases hm : upb_Arena_Malloc A a (4 <<< sizelg2 A type) with
  | none => rw [hm] at h; simp at h
  | some r =>
    obtain ⟨p, b, a2⟩ := r
    rw [hm] at h
    simp only [Option.some.injEq, Prod.mk.injEq] at h
    obtain ⟨hb, hlt, q, hq⟩ := malloc_spec hm
    have hle := sizelg2_le A type
    have htag : (_upb_tag_arrptr p (sizelg2 A type)) &&& 7 = sizelg2 A type := by
      rw [hq]; exact tag_of_tagged q _ (by omega)
    rw [← h.1]
    refine ⟨⟨?_, ?_, ?_, ?_⟩, rfl, rfl, htag⟩
    · simp only [htag]; exact hle
    · simp
    · simp only [htag]; exact hb
    · simp only [hb]; exact hlt

theorem find_filter_same (es : List upb_tabent) (k : List Byte) :
    (es.filter fun e => e.key ≠ k).find? (fun e => e.key = k) = none := by
  rw [List.find?_eq_none]
  intro e he
  have := (List.mem_filter.mp he).2
  simpa using this

theorem find_filter_other (es : List upb_tabent) {k k1 : List Byte} (h : k1 ≠ k) :
    (es.filter fun e => e.key ≠ k).find? (fun e => e.key = k1) =
      es.find? (fun e => e.key = k1) := by
  induction es with
  | nil => rfl
  | cons e es ih =>
    by_cases hk : e.key = k
    · have hk1 : ¬ e.key = k1 := fun h1 => h (h1.symm.trans hk)
      rw [List.filter_cons, if_neg (by simpa using hk), List.find?_cons, ih]
      simp only [hk1, decide_False]
    · rw [List.filter_cons, if_pos (by simpa using hk), List.find?_cons, List.find?_cons, ih]

theorem lookup_remove_same (t : upb_strtable) (k : List Byte) :
    upb_strtable_lookup2 (upb_strtable_remove2 t k).2 k = none := by
  simp only [upb_strtable_lookup2, upb_strtable_remove2, find_filter_same, Option.map_none']

theorem lookup_remove_other (t : upb_strtable) {k k1 : List Byte} (h : k1 ≠ k) :
    upb_strtable_lookup2 (upb_strtable_remove2 t k).2 k1 = upb_strtable_lookup2 t k1 := by
  simp only [upb_strtable_lookup2, upb_strtable_remove2, find_filter_other _ h]

theorem insert_ok {A : Arch} {t t1 : upb_strtable} {k v : List Byte} {a a1 : upb_Arena}
    (h : upb_strtable_insert A t k v a = (true, t1, a1)) :
    ∃ p, t1 = { entries := t.entries ++ [{ key := k, keyptr := p, val := v }] } := by
  unfold upb_strtable_insert at h
  cases hm : upb_Arena_Malloc A a k.length with
  | none => rw [hm] at h; simp at h
  | some r =>
    obtain ⟨p, b, a2⟩ := r
    rw [hm] at h
    simp only [Prod.mk.injEq, true_and] at h
    exact ⟨p, h.1.symm⟩

theorem lookup_insert_same {A : Arch} {t t1 : upb_strtable} {k v : List Byte}
    {a a1 : upb_Arena} (h : upb_strtable_insert A t k v a = (true, t1, a1))
    (hk : upb_strtable_lookup2 t k = none) : upb_strtable_lookup2 t1 k = some v := by
  obtain ⟨p, rfl⟩ := insert_ok h
  unfold upb_strtable_lookup2 at hk ⊢
  have h0 : t.entries.find? (fun e => e.key = k) = none := by
    cases hf : t.entries.find? (fun e => e.key = k) with
    | none => rfl
    | some e => rw [hf] at hk; simp at hk
  simp [List.find?_append, h0]

theorem lookup_insert_other {A : Arch} {t t1 : upb_strtable} {k k1 v : List Byte}
    {a a1 : upb_Arena} (h : upb_strtable_insert A t k v a = (true, t1, a1)) (hk : k1 ≠ k) :
    upb_strtable_lookup2 t1 k1 = upb_strtable_lookup2 t k1 := by
  obtain ⟨p, rfl⟩ := insert_ok h
  unfold upb_strtable_lookup2
  have hk2 : ¬ k = k1 := fun h1 => hk h1.symm
  simp [List.find?_append, hk2]

/-! ## Maps: what a successful set leaves behind -/

theorem map_set_ok {A : Arch} {heap : Heap} {m m1 : upb_Map} {k v : upb_MessageValue}
    {a a1 : upb_Arena} (h : upb_Map_Set A heap m k v a = (true, m1, a1)) :
    m1.key_size = m.key_size ∧ m1.val_size = m.val_size ∧
      upb_strtable_insert A
          (upb_strtable_remove2 m.table (_upb_map_tokey A heap k m.key_size)).2
          (_upb_map_tokey A heap k m.key_size) (_upb_map_tovalue A v m.val_size) a =
        (true, m1.table, a1) := by
  unfold upb_Map_Set _upb_Map_Set at h
  simp only at h
  rcases hi : upb_strtable_insert A
      (upb_strtable_remove2 m.table (_upb_map_tokey A heap k m.key_size)).2
      (_upb_map_tokey A heap k m.key_size) (_upb_map_tovalue A v m.val_size) a with ⟨b, t, a2⟩
  rw [hi] at h
  cases b
  · simp at h
  · simp only [Prod.mk.injEq, true_and] at h
    obtain ⟨h1, h2⟩ := h
    subst h1
    exact ⟨rfl, rfl, by rw [h2]⟩

theorem map_get_of_lookup {A : Arch} {heap : Heap} {m : upb_Map} {k : upb_MessageValue}
    {tabval : List Byte} (out : upb_MessageValue)
    (h : upb_strtable_lookup2 m.table (_upb_map_tokey A heap k m.key_size) = some tabval) :
    upb_Map_Get A heap m k out = (true, _upb_map_fromvalue A tabval out m.val_size) := by
  unfold upb_Map_Get _upb_Map_Get
  simp only [h]

theorem map_get_of_lookup_none {A : Arch} {heap : Heap} {m : upb_Map} {k : upb_MessageValue}
    (out : upb_MessageValue)
    (h : upb_strtable_lookup2 m.table (_upb_map_tokey A heap k m.key_size) = none) :
    upb_Map_Get A heap m k out = (false, out) := by
  unfold upb_Map_Get _upb_Map_Get
  simp only [h]

theorem map_lookup_after_set {A : Arch} {heap : Heap} {m m1 : upb_Map}
    {k v : upb_MessageValue} {a a1 : upb_Arena}
    (h : upb_Map_Set A heap m k v a = (true, m1, a1)) :
    upb_strtable_lookup2 m1.table (_upb_map_tokey A heap k m.key_size) =
        some (_upb_map_tovalue A v m.val_size) ∧
      ∀ k1, k1 ≠ _upb_map_tokey A heap k m.key_size →
        upb_strtable_lookup2 m1.table k1 = upb_strtable_lookup2 m.table k1 := by
  obtain ⟨_, _, hi⟩ := map_set_ok h
  refine ⟨lookup_insert_same hi (lookup_remove_same _ _), fun k1 hk1 => ?_⟩
  rw [lookup_insert_other hi hk1, lookup_remove_other _ hk1]

/-! ## Packing and unpacking a value -/

theorem memRead_self (p : List Byte) : memRead p 0 p.length = p := by
  apply eq_of_getD_eq (length_memRead _ _ _)
  intro k hk
  rw [length_memRead] at hk
  rw [getD_memRead, if_pos hk, Nat.zero_add]

theorem length_tovalue (A : Arch) (v : upb_MessageValue) (size : Nat) :
    (_upb_map_tovalue A v size).length =
      if size = UPB_MAPTYPE_STRING then 2 * A.ptrBytes else size := by
  unfold _upb_map_tovalue
  split <;> simp [length_memRead]

theorem memcpy_full (out p : List Byte) (n : Nat) (h : p.length = n) :
    memcpy out 0 p 0 n = memWrite out 0 p := by
  subst h
  unfold memcpy
  rw [memRead_self]

/-- Unpacking a payload into a value with enough room and packing that value
again gives the payload back. -/
theorem tovalue_fromvalue (A : Arch) (v out : upb_MessageValue) (size : Nat)
    (hroom : (_upb_map_tovalue A v size).length ≤ out.length) :
    _upb_map_tovalue A (_upb_map_fromvalue A (_upb_map_tovalue A v size) out size) size =
      _upb_map_tovalue A v size := by
  have hl := length_tovalue A v size
  have hrt := memRead_memWrite_zero out (_upb_map_tovalue A v size) hroom
  by_cases hs : size = UPB_MAPTYPE_STRING
  · rw [if_pos hs] at hl
    have e : _upb_map_fromvalue A (_upb_map_tovalue A v size) out size =
        memWrite out 0 (_upb_map_tovalue A v size) := by
      unfold _upb_map_fromvalue
      rw [if_pos hs, memcpy_full _ _ _ hl]
    rw [e]
    rw [hl] at hrt
    conv_lhs => unfold _upb_map_tovalue
    rw [if_pos hs]
    exact hrt
  · rw [if_neg hs] at hl
    have e : _upb_map_fromvalue A (_upb_map_tovalue A v size) out size =
        memWrite out 0 (_upb_map_tovalue A v size) := by
      unfold _upb_map_fromvalue
      rw [if_neg hs, memcpy_full _ _ _ hl]
    rw [e]
    rw [hl] at hrt
    conv_lhs => unfold _upb_map_tovalue
    rw [if_neg hs]
    exact hrt

/-! ## A run of sets on distinct keys, and the traversal -/

theorem filter_key_ne_self (es : List upb_tabent) (k : List Byte)
    (h : ∀ e ∈ es, e.key ≠ k) : (es.filter fun e => e.key ≠ k) = es := by
  rw [List.filter_eq_self]
  intro e he
  simpa using h e he

theorem setAll_spec {A : Arch} {heap : Heap}
    (kvs : List (upb_MessageValue × upb_MessageValue)) :
    ∀ (m m1 : upb_Map) (a a1 : upb_Arena),
      upb_Map_SetAll A heap m a kvs = some (m1, a1) →
      (∀ kv ∈ kvs, ∀ e ∈ m.table.entries, e.key ≠ _upb_map_tokey A heap kv.1 m.key_size) →
      (kvs.map fun kv => _upb_map_tokey A heap kv.1 m.key_size).Nodup →
      m1.key_size = m.key_size ∧ m1.val_size = m.val_size ∧
        (m1.table.entries.map fun e => (e.key, e.val)) =
          (m.table.entries.map fun e => (e.key, e.val)) ++
            kvs.map fun kv =>
              (_upb_map_tokey A heap kv.1 m.key_size, _upb_map_tovalue A kv.2 m.val_size) := by
  induction kvs with
  | nil =>
    intro m m1 a a1 h _ _
    simp only [upb_Map_SetAll, Option.some.injEq, Prod.mk.injEq] at h
    rw [← h.1]
    simp
  | cons kv kvs ih =>
    intro m m1 a a1 h hfresh hnd
    obtain ⟨k, v⟩ := kv
    simp only [upb_Map_SetAll] at h
    rcases hs : upb_Map_Set A heap m k v a with ⟨b, m2, a2⟩
    rw [hs] at h
    cases b
    · simp at h
    · simp only at h
      obtain ⟨hk, hv, hi⟩ := map_set_ok hs
      obtain ⟨p, e⟩ := insert_ok hi
      have hrem : (upb_strtable_remove2 m.table (_upb_map_tokey A heap k m.key_size)).2.entries =
          m.table.entries :=
        filter_key_ne_self _ _ (fun e he => hfresh (k, v) (List.mem_cons_self _ _) e he)
      rw [hrem] at e
      simp only [List.map_cons, List.nodup_cons] at hnd
      have hfresh2 : ∀ kv ∈ kvs, ∀ e ∈ m2.table.entries,
          e.key ≠ _upb_map_tokey A heap kv.1 m2.key_size := by
        intro kv hkv e1 he1
        rw [e] at he1
        rw [hk]
        rcases List.mem_append.mp he1 with h1 | h1
        · exact hfresh kv (List.mem_cons_of_mem _ hkv) e1 h1
        · simp only [List.mem_singleton] at h1
          rw [h1]
          intro heq
          exact hnd.1 (List.mem_map.mpr ⟨kv, hkv, heq.symm⟩)
      have hnd2 : (kvs.map fun kv => _upb_map_tokey A heap kv.1 m2.key_size).Nodup := by
        rw [hk]; exact hnd.2
      obtain ⟨r1, r2, r3⟩ := ih m2 m1 a2 a1 h hfresh2 hnd2
      refine ⟨by rw [r1, hk], by rw [r2, hv], ?_⟩
      rw [r3, e, hk, hv]
      simp

theorem map_getD_range {α β : Type} (es : List α) (H : α → β) (d : α) :
    ((List.range es.length).map fun j => H (es.getD j d)) = es.map H := by
  apply List.ext_getElem (by simp)
  intro j h1 h2
  have h3 : j < es.length := by simpa using h1
  simp [List.getElem?_eq_getElem h3]

theorem traverse_from {A : Arch} (m : upb_Map) (ret : upb_MessageValue)
    (hN : m.table.entries.length + 1 < A.sizeMod) :
    ∀ (n j iter : Nat), j + n = m.table.entries.length → addw A iter 1 = j →
      upb_Map_traverse A m ret (n + 1) iter =
        some ((List.range' j n).map fun i =>
          (i, upb_MapIterator_Key A m i ret, upb_MapIterator_Value A m i ret),
          m.table.entries.length) := by
  intro n
  induction n with
  | zero =>
    intro j iter hj hi
    simp only [upb_Map_traverse, upb_MapIterator_Next, _upb_map_next, upb_strtable_count, hi]
    have : j = m.table.entries.length := by omega
    simp [this]
  | succ n ih =>
    intro j iter hj hi
    have hlt : j < m.table.entries.length := by omega
    rw [upb_Map_traverse]
    simp only [upb_MapIterator_Next, _upb_map_next, upb_strtable_count, hi, hlt, decide_True]
    rw [ih (j + 1) j (by omega) (addw_eq (by omega))]
    simp [List.range']

theorem begin_wraps (A : Arch) : addw A (kUpb_Map_Begin A) 1 = 0 := by
  unfold addw kUpb_Map_Begin
  have := sizeMod_pos A
  rw [Nat.sub_add_cancel (by omega), Nat.mod_self]

/-- Unpacking a fixed-width key into a value with enough room and packing that
value again gives the key back. -/
theorem tokey_fromkey (A : Arch) (heap : Heap) (e : upb_tabent) (out : upb_MessageValue)
    (size : Nat) (hs : size ≠ UPB_MAPTYPE_STRING) (hl : e.key.length = size)
    (hroom : size ≤ out.length) :
    _upb_map_tokey A heap (_upb_map_fromkey A e out size) size = e.key := by
  unfold _upb_map_tokey _upb_map_fromkey
  rw [if_neg hs, if_neg hs, memcpy_full _ _ _ hl]
  have := memRead_memWrite_zero out e.key (by omega)
  rw [hl] at this
  exact this

theorem length_tokey_fixed (A : Arch) (heap : Heap) (k : upb_MessageValue) (size : Nat)
    (hs : size ≠ UPB_MAPTYPE_STRING) : (_upb_map_tokey A heap k size).length = size := by
  unfold _upb_map_tokey
  rw [if_neg hs, length_memRead]

/-! ## String handles and the memory of the table's key copies -/

theorem foldr_congr_mem (l : List Nat) (f g : Nat → Nat) (h : ∀ k ∈ l, f k = g k) :
    l.foldr (fun k acc => f k + 256 * acc) 0 = l.foldr (fun k acc => g k + 256 * acc) 0 := by
  induction l with
  | nil => rfl
  | cons x xs ih =>
    simp only [List.foldr_cons]
    rw [h x (List.mem_cons_self _ _), ih (fun k hk => h k (List.mem_cons_of_mem _ hk))]

theorem loadWord_congr (A : Arch) (v w : List Byte) (off : Nat)
    (h : ∀ k, k < A.ptrBytes → v.getD (off + k) 0 = w.getD (off + k) 0) :
    loadWord A v off = loadWord A w off := by
  unfold loadWord
  apply foldr_congr_mem
  intro k hk
  rw [h k (by simpa using hk)]

theorem loadWord_storeWord (A : Arch) (d s : Nat) (hd : d < A.sizeMod) (hs : s < A.sizeMod) :
    loadWord A (upb_StringView.bytes A { data := d, size := s }) 0 = d ∧
      loadWord A (upb_StringView.bytes A { data := d, size := s }) A.ptrBytes = s := by
  cases A
  · simp only [Arch.sizeMod, Arch.ptrBytes] at hd hs
    simp [loadWord, upb_StringView.bytes, storeWord, Arch.ptrBytes, List.range_succ, Fin.ofNat]
    constructor <;> omega
  · simp only [Arch.sizeMod, Arch.ptrBytes] at hd hs
    simp [loadWord, upb_StringView.bytes, storeWord, Arch.ptrBytes, List.range_succ, Fin.ofNat]
    constructor <;> omega

theorem length_view_bytes (A : Arch) (s : upb_StringView) :
    (upb_StringView.bytes A s).length = 2 * A.ptrBytes := by
  simp [upb_StringView.bytes, storeWord]
  omega

/-- A handle stored into a value with enough room is read back as it was. -/
theorem str_val_memWrite (A : Arch) (out : upb_MessageValue) (d s : Nat) (hd : d < A.sizeMod)
    (hs : s < A.sizeMod) (hroom : 2 * A.ptrBytes ≤ out.length) :
    upb_MessageValue.str_val A (memWrite out 0 (upb_StringView.bytes A { data := d, size := s })) =
      { data := d, size := s } := by
  have hl := length_view_bytes A { data := d, size := s }
  have hc : ∀ off k, off + k < 2 * A.ptrBytes →
      (memWrite out 0 (upb_StringView.bytes A { data := d, size := s })).getD (off + k) 0 =
        (upb_StringView.bytes A { data := d, size := s }).getD (off + k) 0 := by
    intro off k hk
    rw [getD_memWrite, hl, if_pos (by omega), Nat.sub_zero]
  obtain ⟨h1, h2⟩ := loadWord_storeWord A d s hd hs
  unfold upb_MessageValue.str_val
  rw [loadWord_congr A _ _ 0 (fun k hk => hc 0 k (by omega)),
    loadWord_congr A _ _ A.ptrBytes (fun k hk => hc A.ptrBytes k (by omega)), h1, h2]

theorem malloc_head {A : Arch} {a a1 : upb_Arena} {n ptr : Nat} {block : List Byte}
    (h : upb_Arena_Malloc A a n = some (ptr, block, a1)) :
    a.head ≤ ptr ∧ a1.head = ptr + n ∧ ptr + n < A.sizeMod := by
  unfold upb_Arena_Malloc at h
  simp only at h
  split at h
  · rename_i hc
    simp only [Option.some.injEq, Prod.mk.injEq] at h
    obtain ⟨h1, _, h3⟩ := h
    rw [← h1, ← h3]
    refine ⟨?_, rfl, hc.2.2⟩
    unfold UPB_ALIGN_UP
    omega
  · exact absurd h (by simp)

theorem insert_ok_block {A : Arch} {t t1 : upb_strtable} {k v : List Byte} {a a1 : upb_Arena}
    (h : upb_strtable_insert A t k v a = (true, t1, a1)) :
    ∃ p, t1 = { entries := t.entries ++ [{ key := k, keyptr := p, val := v }] } ∧
      a.head ≤ p ∧ a1.head = p + k.length ∧ p + k.length < A.sizeMod := by
  unfold upb_strtable_insert at h
  cases hm : upb_Arena_Malloc A a k.length with
  | none => rw [hm] at h; simp at h
  | some r =>
    obtain ⟨p, b, a2⟩ := r
    rw [hm] at h
    simp only [Prod.mk.injEq, true_and] at h
    obtain ⟨h1, h2, h3⟩ := malloc_head hm
    exact ⟨p, h.1.symm, h1, by rw [← h.2]; exact h2, h3⟩

theorem keysStored_set {A : Arch} {heap : Heap} {m m1 : upb_Map} {k v : upb_MessageValue}
    {a a1 : upb_Arena} (hinv : m.table.KeysStored A a)
    (h : upb_Map_Set A heap m k v a = (true, m1, a1)) : m1.table.KeysStored A a1 := by
  obtain ⟨_, _, hi⟩ := map_set_ok h
  obtain ⟨p, e, h1, h2, h3⟩ := insert_ok_block hi
  obtain ⟨hp, hb⟩ := hinv
  have hsub : ∀ e1 ∈ (upb_strtable_remove2 m.table (_upb_map_tokey A heap k m.key_size)).2.entries,
      e1 ∈ m.table.entries := fun e1 he1 => (List.mem_filter.mp he1).1
  rw [e]
  constructor
  · rw [List.pairwise_append]
    refine ⟨hp.sublist (List.filter_sublist _), List.pairwise_singleton _ _, ?_⟩
    intro e1 he1 e2 he2
    simp only [List.mem_singleton] at he2
    rw [he2]
    have := (hb e1 (hsub e1 he1)).1
    simp only
    omega
  · intro e1 he1
    rcases List.mem_append.mp he1 with h4 | h4
    · have := hb e1 (hsub e1 h4)
      exact ⟨by omega, this.2⟩
    · simp only [List.mem_singleton] at h4
      rw [h4]
      exact ⟨by simp only; omega, h3⟩

theorem keysStored_setAll {A : Arch} {heap : Heap}
    (kvs : List (upb_MessageValue × upb_MessageValue)) :
    ∀ (m m1 : upb_Map) (a a1 : upb_Arena), m.table.KeysStored A a →
      upb_Map_SetAll A heap m a kvs = some (m1, a1) → m1.table.KeysStored A a1 := by
  induction kvs with
  | nil =>
    intro m m1 a a1 hinv h
    simp only [upb_Map_SetAll, Option.some.injEq, Prod.mk.injEq] at h
    rw [← h.1, ← h.2]
    exact hinv
  | cons kv kvs ih =>
    intro m m1 a a1 hinv h
    obtain ⟨k, v⟩ := kv
    simp only [upb_Map_SetAll] at h
    rcases hs : upb_Map_Set A heap m k v a with ⟨b, m2, a2⟩
    rw [hs] at h
    cases b
    · simp at h
    · exact ih m2 m1 a2 a1 (keysStored_set hinv hs) h

theorem find_cover (es : List upb_tabent)
    (hp : es.Pairwise (fun e1 e2 => e1.keyptr + e1.key.length ≤ e2.keyptr))
    (e : upb_tabent) (he : e ∈ es) (p : Nat) (h1 : e.keyptr ≤ p)
    (h2 : p < e.keyptr + e.key.length) :
    es.find? (fun x => x.keyptr ≤ p ∧ p < x.keyptr + x.key.length) = some e := by
  induction es with
  | nil => simp at he
  | cons x xs ih =>
    rw [List.pairwise_cons] at hp
    by_cases hx : x.keyptr ≤ p ∧ p < x.keyptr + x.key.length
    · have hxe : x = e := by
        rcases List.mem_cons.mp he with h | h
        · exact h.symm
        · have := hp.1 e h
          omega
      rw [List.find?_cons, decide_eq_true hx, hxe]
    · have hne : e ∈ xs := by
        rcases List.mem_cons.mp he with h | h
        · rw [h] at h1 h2; exact absurd ⟨h1, h2⟩ hx
        · exact h
      rw [List.find?_cons, decide_eq_false hx]
      exact ih hp.2 hne

/-- Through the map's memory the handle of an entry addresses the entry's key
bytes. -/
theorem memory_read_entry {A : Arch} {m : upb_Map} {a : upb_Arena} (heap : Heap)
    (hinv : m.table.KeysStored A a) (e : upb_tabent) (he : e ∈ m.table.entries) :
    (m.memory heap).read { data := e.keyptr, size := e.key.length } = e.key := by
  unfold Heap.read
  apply List.ext_getElem (by simp)
  intro j h1 h2
  have hj : j < e.key.length := h2
  simp only [List.getElem_map, List.getElem_range, upb_Map.memory]
  rw [find_cover _ hinv.1 e he (e.keyptr + j) (by omega) (by omega)]
  simp only [Nat.add_sub_cancel_left]
  exact List.getD_eq_getElem _ _ hj

/-- Unpacking the key of an entry into a value with enough room and packing
that value again, with the map's memory, gives the key back. -/
theorem tokey_fromkey_entry {A : Arch} {m : upb_Map} {a : upb_Arena} (heap : Heap)
    (hinv : m.table.KeysStored A a) (e : upb_tabent) (he : e ∈ m.table.entries)
    (out : upb_MessageValue) (size : Nat)
    (hl : size ≠ UPB_MAPTYPE_STRING → e.key.length = size)
    (hroom : (if size = UPB_MAPTYPE_STRING then 2 * A.ptrBytes else size) ≤ out.length) :
    _upb_map_tokey A (m.memory heap) (_upb_map_fromkey A e out size) size = e.key := by
  by_cases hs : size = UPB_MAPTYPE_STRING
  · rw [if_pos hs] at hroom
    have hb := (hinv.2 e he).2
    unfold _upb_map_tokey _upb_map_fromkey
    rw [if_pos hs, if_pos hs, str_val_memWrite A out _ _ (by omega) (by omega) hroom]
    exact memory_read_entry heap hinv e he
  · rw [if_neg hs] at hroom
    exact tokey_fromkey A (m.memory heap) e out size hs (hl hs) hroom

theorem memRead_zero_eq_take (v : List Byte) (w : Nat) (h : w ≤ v.length) :
    memRead v 0 w = v.take w := by
  apply eq_of_getD_eq (by simp only [length_memRead, List.length_take]; omega)
  intro k hk
  rw [length_memRead] at hk
  have := getD_take_append_drop v [] w k h
  rw [if_pos hk] at this
  rw [getD_memRead, if_pos hk, Nat.zero_add, ← this]
  simp

/-- What a lookup writes into the output: the value bytes of the stored value
in front of the tail of the output. -/
theorem fromvalue_tovalue_eq (A : Arch) (v out : upb_MessageValue) (size : Nat)
    (hv : (if size = UPB_MAPTYPE_STRING then 2 * A.ptrBytes else size) ≤ v.length)
    (hout : (if size = UPB_MAPTYPE_STRING then 2 * A.ptrBytes else size) ≤ out.length) :
    _upb_map_fromvalue A (_upb_map_tovalue A v size) out size =
      v.take (if size = UPB_MAPTYPE_STRING then 2 * A.ptrBytes else size) ++
        out.drop (if size = UPB_MAPTYPE_STRING then 2 * A.ptrBytes else size) := by
  by_cases hs : size = UPB_MAPTYPE_STRING
  · rw [if_pos hs] at hv hout ⊢
    unfold _upb_map_fromvalue _upb_map_tovalue
    rw [if_pos hs, if_pos hs, memcpy_full _ _ _ (length_memRead _ _ _)]
    exact memWrite_zero_eq out _ v _ rfl hv hout
  · rw [if_neg hs] at hv hout ⊢
    unfold _upb_map_fromvalue _upb_map_tovalue
    rw [if_neg hs, if_neg hs, memcpy_full _ _ _ (length_memRead _ _ _)]
    exact memWrite_zero_eq out _ v _ rfl hv hout

/-! ## Claims about single operations -/

/-- Claim C1: for every array (any element width tag 0..4), every index
`i < length` and every value `v`, `upb_Array_Set(arr, i, v)` succeeds and
`upb_Array_Get(arr, i)` called after it returns `v` unchanged as a value of
the array's width: the `1 << lg2` bytes of the result are exactly those of
`v`. The bytes of the value union beyond that width are never stored; the
result carries there what the return slot held, so it equals `v` byte for byte
whenever those bytes agree, in particular when `v` and the return slot are
exactly one element wide. -/
theorem upb_Array_Get_after_Set (A : Arch) (arr : upb_Array) (i : Nat)
    (v ret : upb_MessageValue) (hwf : arr.WF A) (hi : i < arr.len)
    (hv : 1 <<< (arr.data &&& 7) ≤ v.length) (hret : 1 <<< (arr.data &&& 7) ≤ ret.length) :
    ∃ arr1, upb_Array_Set A arr i v = some arr1 ∧
      upb_Array_Get A arr1 i ret =
        some (v.take (1 <<< (arr.data &&& 7)) ++ ret.drop (1 <<< (arr.data &&& 7))) ∧
      (v.drop (1 <<< (arr.data &&& 7)) = ret.drop (1 <<< (arr.data &&& 7)) →
        upb_Array_Get A arr1 i ret = some v) ∧
      (∃ r, upb_Array_Get A arr1 i ret = some r ∧ r.length = ret.length ∧
        r.take (1 <<< (arr.data &&& 7)) = v.take (1 <<< (arr.data &&& 7))) ∧
      (v.length = 1 <<< (arr.data &&& 7) → ret.length = 1 <<< (arr.data &&& 7) →
        upb_Array_Get A arr1 i ret = some v) := by
  obtain ⟨arr1, hset, hwf1, hd, hl, hs, hb⟩ := set_spec hwf hi v
  have hget : upb_Array_Get A arr1 i ret =
      some (v.take (1 <<< (arr.data &&& 7)) ++ ret.drop (1 <<< (arr.data &&& 7))) := by
    rw [get_some ret (by omega)]
    rw [one_shl] at hv hret ⊢
    rw [memWrite_zero_eq ret _ v _ (set_elem hwf hi hset).1 hv hret]
  have hfull : v.drop (1 <<< (arr.data &&& 7)) = ret.drop (1 <<< (arr.data &&& 7)) →
      upb_Array_Get A arr1 i ret = some v := by
    intro h
    rw [hget, ← h, List.take_append_drop]
  refine ⟨arr1, hset, hget, hfull, ⟨_, hget, ?_, ?_⟩, fun h1 h2 => hfull ?_⟩
  · simp only [List.length_append, List.length_take, List.length_drop]
    omega
  · exact List.take_left' (by simp only [List.length_take]; omega)
  · rw [List.drop_of_length_le (by omega), List.drop_of_length_le (by omega)]

/-- Witness for C1: an Int32 array, slot 1, a 16-byte value read back into a
zeroed 16-byte return slot. -/
theorem upb_Array_Get_after_Set_witness :
    int32Arr.WF Arch.bits64 ∧ 1 < int32Arr.len ∧
      1 <<< (int32Arr.data &&& 7) ≤ wideValue.length ∧
      1 <<< (int32Arr.data &&& 7) ≤ zeroValue.length ∧
      ∃ arr1, upb_Array_Set Arch.bits64 int32Arr 1 wideValue = some arr1 ∧
        upb_Array_Get Arch.bits64 arr1 1 zeroValue =
          some (wideValue.take (1 <<< (int32Arr.data &&& 7)) ++
            zeroValue.drop (1 <<< (int32Arr.data &&& 7))) ∧
        (wideValue.drop (1 <<< (int32Arr.data &&& 7)) =
            zeroValue.drop (1 <<< (int32Arr.data &&& 7)) →
          upb_Array_Get Arch.bits64 arr1 1 zeroValue = some wideValue) ∧
        (∃ r, upb_Array_Get Arch.bits64 arr1 1 zeroValue = some r ∧
          r.length = zeroValue.length ∧
          r.take (1 <<< (int32Arr.data &&& 7)) =
            wideValue.take (1 <<< (int32Arr.data &&& 7))) ∧
        (wideValue.length = 1 <<< (int32Arr.data &&& 7) →
          zeroValue.length = 1 <<< (int32Arr.data &&& 7) →
          upb_Array_Get Arch.bits64 arr1 1 zeroValue = some wideValue) :=
  ⟨by decide, by decide, by decide, by decide,
    upb_Array_Get_after_Set Arch.bits64 int32Arr 1 wideValue zeroValue (by decide) (by decide)
      (by decide) (by decide)⟩

/-- Claim C2: for every array of length `n`, every `i` and every `count`, a
successful `upb_Array_Insert(arr, i, count, arena)` (which implies `i <= n`
and that `n + count` does not overflow) leaves length `n + count`, leaves the
elements `[0, i)` equal to the old elements `[0, i)`, and makes element
`i + count + k` equal to the old element `i + k` for every `k < n - i`. -/
theorem upb_Array_Insert_shifts_right (A : Arch) (arr arr2 : upb_Array) (i count : Nat)
    (arena arena2 : upb_Arena) (hwf : arr.WF A)
    (h : upb_Array_Insert A arr i count arena = some (true, arr2, arena2)) :
    (i ≤ arr.len ∧ arr.len + count < A.sizeMod) ∧
      arr2.len = arr.len + count ∧
      (∀ j, j < i → arr2.elem A j = arr.elem A j) ∧
      (∀ k, k < arr.len - i → arr2.elem A (i + count + k) = arr.elem A (i + k)) := by
  obtain ⟨hi, hov, _⟩ := insert_success hwf h
  obtain ⟨_, _, hl, h1, h2⟩ := insert_spec hwf h
  exact ⟨⟨hi, hov⟩, hl, h1, h2⟩

/-- Witness for C2: inserting two slots at index 1 of a three-element Int32
array reallocates (capacity 4 to 8) and succeeds. -/
theorem upb_Array_Insert_shifts_right_witness :
    int32Arr.WF Arch.bits64 ∧
      upb_Array_Insert Arch.bits64 int32Arr 1 2 junkArena =
        some (true, int32Inserted, junkArenaAfter) ∧
      (1 ≤ int32Arr.len ∧ int32Arr.len + 2 < Arch.sizeMod Arch.bits64) ∧
      int32Inserted.len = int32Arr.len + 2 ∧
      (∀ j, j < 1 → int32Inserted.elem Arch.bits64 j = int32Arr.elem Arch.bits64 j) ∧
      (∀ k, k < int32Arr.len - 1 →
        int32Inserted.elem Arch.bits64 (1 + 2 + k) = int32Arr.elem Arch.bits64 (1 + k)) :=
  ⟨by decide, by with_unfolding_all rfl,
    upb_Array_Insert_shifts_right Arch.bits64 int32Arr int32Inserted 1 2 junkArena
      junkArenaAfter (by decide) (by with_unfolding_all rfl)⟩

/-- Claim C3: for every array of length `n` and every `i`, `count` with
`i + count <= n`, `upb_Array_Delete(arr, i, count)` never fails, leaves length
`n - count`, leaves the elements `[0, i)` unchanged, makes element `i + k`
equal to the old element `i + count + k` for every `k < n - (i + count)`, and
changes neither the capacity nor the width tag. -/
theorem upb_Array_Delete_shifts_left (A : Arch) (arr : upb_Array) (i count : Nat)
    (hwf : arr.WF A) (h : i + count ≤ arr.len) :
    ∃ arr1, upb_Array_Delete A arr i count = some arr1 ∧
      arr1.len = arr.len - count ∧
      (∀ j, j < i → arr1.elem A j = arr.elem A j) ∧
      (∀ k, k < arr.len - (i + count) → arr1.elem A (i + k) = arr.elem A (i + count + k)) ∧
      arr1.size = arr.size ∧ (arr1.data &&& 7) = (arr.data &&& 7) := by
  obtain ⟨arr1, hdel, _, hd, hs, hl, h1, h2, _⟩ := delete_spec hwf h
  exact ⟨arr1, hdel, hl, h1, h2, hs, by rw [hd]⟩

/-- Witness for C3: deleting slots 1 and 2 of a full four-element Int32 array. -/
theorem upb_Array_Delete_shifts_left_witness :
    int32Full.WF Arch.bits64 ∧ 1 + 2 ≤ int32Full.len ∧
      ∃ arr1, upb_Array_Delete Arch.bits64 int32Full 1 2 = some arr1 ∧
        arr1.len = int32Full.len - 2 ∧
        (∀ j, j < 1 → arr1.elem Arch.bits64 j = int32Full.elem Arch.bits64 j) ∧
        (∀ k, k < int32Full.len - (1 + 2) →
          arr1.elem Arch.bits64 (1 + k) = int32Full.elem Arch.bits64 (1 + 2 + k)) ∧
        arr1.size = int32Full.size ∧ (arr1.data &&& 7) = (int32Full.data &&& 7) :=
  ⟨by decide, by decide,
    upb_Array_Delete_shifts_left Arch.bits64 int32Full 1 2 (by decide) (by decide)⟩

/-- Claim C6: `upb_Array_Move(arr, dst, src, count)` has overlap-safe move
semantics: whenever both ranges lie inside the buffer, afterwards element
`dst + k` equals the element that was at `src + k` before the call, for every
`k < count`, whether or not the ranges overlap; the elements outside
`[dst, dst + count)` and the length are unchanged. -/
theorem upb_Array_Move_overlap_safe (A : Arch) (arr : upb_Array) (dst src count : Nat)
    (hwf : arr.WF A) (hd : dst + count ≤ arr.size) (hs : src + count ≤ arr.size) :
    (∀ k, k < count →
        (upb_Array_Move A arr dst src count).elem A (dst + k) = arr.elem A (src + k)) ∧
      (∀ j, j < arr.size → (j < dst ∨ dst + count ≤ j) →
        (upb_Array_Move A arr dst src count).elem A j = arr.elem A j) ∧
      (upb_Array_Move A arr dst src count).len = arr.len :=
  ⟨fun _ hk => move_elem hwf hd hs hk, fun _ hj hout => move_elem_other hwf hd hs hj hout,
    (move_frame A arr dst src count).2.1⟩

/-- Witness for C6: the overlapping forward move of slots `[0, 3)` onto
`[1, 4)` of a four-element Int32 array. -/
theorem upb_Array_Move_overlap_safe_witness :
    int32Full.WF Arch.bits64 ∧ 1 + 3 ≤ int32Full.size ∧ 0 + 3 ≤ int32Full.size ∧
      (∀ k, k < 3 →
        (upb_Array_Move Arch.bits64 int32Full 1 0 3).elem Arch.bits64 (1 + k) =
          int32Full.elem Arch.bits64 (0 + k)) ∧
      (∀ j, j < int32Full.size → (j < 1 ∨ 1 + 3 ≤ j) →
        (upb_Array_Move Arch.bits64 int32Full 1 0 3).elem Arch.bits64 j =
          int32Full.elem Arch.bits64 j) ∧
      (upb_Array_Move Arch.bits64 int32Full 1 0 3).len = int32Full.len :=
  ⟨by decide, by decide, by decide,
    upb_Array_Move_overlap_safe Arch.bits64 int32Full 1 0 3 (by decide) (by decide)
      (by decide)⟩

/-- Claim C10: the table `_upb_CTypeo_mapsize` maps each of the eleven value
kinds to its byte width: Bool 1; Float, Int32, UInt32, Enum 4; Message the
pointer width (4 on a 32-bit target, 8 on a 64-bit target); Double, Int64,
UInt64 8; String and Bytes 0. -/
theorem mapsize_table (A : Arch) (type : upb_CType) :
    mapsize A type =
      match type with
      | .Bool => 1
      | .Float => 4
      | .Int32 => 4
      | .UInt32 => 4
      | .Enum => 4
      | .Message => (match A with
          | .bits32 => 4
          | .bits64 => 8)
      | .Double => 8
      | .Int64 => 8
      | .UInt64 => 8
      | .String => 0
      | .Bytes => 0 := by
  cases A <;> cases type <;> rfl

/-! ## Claims about append, and about insert and delete together -/

/-- Claim C4: for every array of length `n` and every value `v`, a successful
`upb_Array_Append(arr, v, arena)` is equivalent to a successful
`resize(arr, n + 1)` followed by `set(arr, n, v)`: afterwards the length is
`n + 1`, the elements `[0, n)` are unchanged, and `get(arr, n)` returns the
appended value at the array's width: the `1 << lg2` bytes of the result are
exactly those of `v` (beyond that width the result carries what the return
slot held, so it equals `v` byte for byte when those bytes agree). This holds
for every width tag, hence for the width of every value kind. -/
theorem upb_Array_Append_is_resize_then_set (A : Arch) (arr arr2 : upb_Array)
    (v ret : upb_MessageValue) (arena arena2 : upb_Arena) (hwf : arr.WF A)
    (hv : 1 <<< (arr.data &&& 7) ≤ v.length) (hret : 1 <<< (arr.data &&& 7) ≤ ret.length) :
    (upb_Array_Append A arr v arena = some (true, arr2, arena2) ↔
        ∃ arr1, upb_Array_Resize A arr (arr.len + 1) arena = (true, arr1, arena2) ∧
          upb_Array_Set A arr1 arr.len v = some arr2) ∧
      (upb_Array_Append A arr v arena = some (true, arr2, arena2) →
        arr2.len = arr.len + 1 ∧
        (∀ j, j < arr.len → arr2.elem A j = arr.elem A j) ∧
        upb_Array_Get A arr2 arr.len ret =
          some (v.take (1 <<< (arr.data &&& 7)) ++ ret.drop (1 <<< (arr.data &&& 7))) ∧
        (v.drop (1 <<< (arr.data &&& 7)) = ret.drop (1 <<< (arr.data &&& 7)) →
          upb_Array_Get A arr2 arr.len ret = some v) ∧
        (∃ r, upb_Array_Get A arr2 (arr2.len - 1) ret = some r ∧ r.length = ret.length ∧
          r.take (1 <<< (arr.data &&& 7)) = v.take (1 <<< (arr.data &&& 7))) ∧
        (arr2.data &&& 7) = (arr.data &&& 7)) := by
  refine ⟨⟨fun h => append_success hwf h, fun ⟨arr1, h1, h2⟩ => append_of_resize_set hwf h1 h2⟩,
    fun h => ?_⟩
  obtain ⟨_, ht, hl, he, hf⟩ := append_spec hwf h
  have hget : upb_Array_Get A arr2 arr.len ret =
      some (v.take (1 <<< (arr.data &&& 7)) ++ ret.drop (1 <<< (arr.data &&& 7))) := by
    rw [get_some ret (by omega)]
    rw [one_shl] at hv hret ⊢
    rw [memWrite_zero_eq ret _ v _ he hv hret]
  refine ⟨hl, hf, hget, fun hd => ?_, ⟨_, by rw [hl, Nat.add_sub_cancel]; exact hget, ?_, ?_⟩,
    ht⟩
  · rw [hget, ← hd, List.take_append_drop]
  · simp only [List.length_append, List.length_take, List.length_drop]
    omega
  · exact List.take_left' (by simp only [List.length_take]; omega)

/-- Witness for C4: appending to a full Int32 array, which reallocates. -/
theorem upb_Array_Append_is_resize_then_set_witness :
    int32Full.WF Arch.bits64 ∧ 1 <<< (int32Full.data &&& 7) ≤ wideValue.length ∧
      1 <<< (int32Full.data &&& 7) ≤ zeroValue.length ∧
      upb_Array_Append Arch.bits64 int32Full wideValue junkArena =
        some (true, int32Appended, junkArenaAfter) ∧
      int32Appended.len = int32Full.len + 1 ∧
      upb_Array_Get Arch.bits64 int32Appended int32Full.len zeroValue =
        some (wideValue.take (1 <<< (int32Full.data &&& 7)) ++
          zeroValue.drop (1 <<< (int32Full.data &&& 7))) ∧
      (∃ r, upb_Array_Get Arch.bits64 int32Appended (int32Appended.len - 1) zeroValue =
          some r ∧ r.length = zeroValue.length ∧
        r.take (1 <<< (int32Full.data &&& 7)) =
          wideValue.take (1 <<< (int32Full.data &&& 7))) :=
  ⟨by decide, by decide, by decide, by with_unfolding_all rfl,
    ((upb_Array_Append_is_resize_then_set Arch.bits64 int32Full int32Appended wideValue
      zeroValue junkArena junkArenaAfter (by decide) (by decide) (by decide)).2
        (by with_unfolding_all rfl)).1,
    ((upb_Array_Append_is_resize_then_set Arch.bits64 int32Full int32Appended wideValue
      zeroValue junkArena junkArenaAfter (by decide) (by decide) (by decide)).2
        (by with_unfolding_all rfl)).2.2.1,
    ((upb_Array_Append_is_resize_then_set Arch.bits64 int32Full int32Appended wideValue
      zeroValue junkArena junkArenaAfter (by decide) (by decide) (by decide)).2
        (by with_unfolding_all rfl)).2.2.2.2.1⟩

/-- Claim C5: for every array of length `n`, every `i` and every `k`, a
successful `upb_Array_Insert(arr, i, k, arena)` followed by
`upb_Array_Delete(arr, i, k)` restores the pre-insert content: the delete
succeeds, the length is `n` again and every element of `[0, n)` has the bytes
it had before the insert. -/
theorem upb_Array_Insert_then_Delete (A : Arch) (arr arr1 : upb_Array) (i k : Nat)
    (arena arena1 : upb_Arena) (hwf : arr.WF A)
    (h : upb_Array_Insert A arr i k arena = some (true, arr1, arena1)) :
    ∃ arr2, upb_Array_Delete A arr1 i k = some arr2 ∧ arr2.len = arr.len ∧
      ∀ j, j < arr.len → arr2.elem A j = arr.elem A j := by
  obtain ⟨hi, _, _⟩ := insert_success hwf h
  obtain ⟨hwf1, _, hl1, i1, i2⟩ := insert_spec hwf h
  obtain ⟨arr2, hdel, _, _, _, hl2, d1, d2, _⟩ :=
    delete_spec hwf1 (show i + k ≤ arr1.len by omega)
  refine ⟨arr2, hdel, by omega, fun j hj => ?_⟩
  by_cases hji : j < i
  · rw [d1 j hji, i1 j hji]
  · have e : j = i + (j - i) := by omega
    rw [e, d2 (j - i) (by omega), i2 (j - i) (by omega)]

/-- Witness for C5: the insert of two slots at index 1 of the three-element
Int32 array, then the delete of the same range. -/
theorem upb_Array_Insert_then_Delete_witness :
    int32Arr.WF Arch.bits64 ∧
      upb_Array_Insert Arch.bits64 int32Arr 1 2 junkArena =
        some (true, int32Inserted, junkArenaAfter) ∧
      ∃ arr2, upb_Array_Delete Arch.bits64 int32Inserted 1 2 = some arr2 ∧
        arr2.len = int32Arr.len ∧
        ∀ j, j < int32Arr.len → arr2.elem Arch.bits64 j = int32Arr.elem Arch.bits64 j :=
  ⟨by decide, by with_unfolding_all rfl,
    upb_Array_Insert_then_Delete Arch.bits64 int32Arr int32Inserted 1 2 junkArena
      junkArenaAfter (by decide) (by with_unfolding_all rfl)⟩

/-- Claim C8: allocation failure is atomic for `upb_Array_Append` and
`upb_Array_Insert`: each returns false exactly when the underlying resize
reports failure, and the array it leaves is then the array it was given
(length, width tag and every byte of the block). -/
theorem alloc_failure_is_atomic (A : Arch) (arr : upb_Array) (v : upb_MessageValue)
    (i count : Nat) (arena : upb_Arena) (hi : i ≤ arr.len)
    (hov : arr.len + count < A.sizeMod) :
    ((∃ arr1 arena1, upb_Array_Append A arr v arena = some (false, arr1, arena1)) ↔
        (upb_Array_Resize A arr (addw A arr.len 1) arena).1 = false) ∧
      (∀ arr1 arena1, upb_Array_Append A arr v arena = some (false, arr1, arena1) →
        arr1 = arr) ∧
      ((∃ arr1 arena1, upb_Array_Insert A arr i count arena = some (false, arr1, arena1)) ↔
        (upb_Array_Resize A arr (addw A arr.len count) arena).1 = false) ∧
      (∀ arr1 arena1, upb_Array_Insert A arr i count arena = some (false, arr1, arena1) →
        arr1 = arr) := by
  have hins : upb_Array_Insert A arr i count arena = _ := insert_eq arena hi hov
  rw [← addw_eq hov] at hins
  unfold upb_Array_Append
  rw [hins]
  unfold upb_Array_Resize
  refine ⟨?_, ?_, ?_, ?_⟩
  · rcases hres : _upb_Array_Resize A arr (addw A arr.len 1) arena with ⟨b, a1, ar1⟩
    cases b
    · simp
    · cases hset : upb_Array_Set A a1 (subw A a1.len 1) v <;> simp [hset]
  · intro arr1 arena1
    rcases hres : _upb_Array_Resize A arr (addw A arr.len 1) arena with ⟨b, a1, ar1⟩
    cases b
    · intro h
      simp only [Option.some.injEq, Prod.mk.injEq, true_and] at h
      rw [← h.1]
      exact (resize_fail hres).1
    · cases hset : upb_Array_Set A a1 (subw A a1.len 1) v <;> simp [hset]
  · rcases hres : _upb_Array_Resize A arr (addw A arr.len count) arena with ⟨b, a1, ar1⟩
    cases b <;> simp
  · intro arr1 arena1
    rcases hres : _upb_Array_Resize A arr (addw A arr.len count) arena with ⟨b, a1, ar1⟩
    cases b
    · intro h
      simp only [Option.some.injEq, Prod.mk.injEq, true_and] at h
      rw [← h.1]
      exact (resize_fail hres).1
    · simp

/-- Witness for C8: a full Int32 array and an exhausted arena; the append and
the insert both report failure and hand back the array unchanged. -/
theorem alloc_failure_is_atomic_witness :
    1 ≤ int32Full.len ∧ int32Full.len + 2 < Arch.sizeMod Arch.bits64 ∧
      upb_Array_Append Arch.bits64 int32Full wideValue fullArena =
        some (false, int32Full, fullArena) ∧
      upb_Array_Insert Arch.bits64 int32Full 1 2 fullArena =
        some (false, int32Full, fullArena) ∧
      (∀ arr1 arena1,
        upb_Array_Append Arch.bits64 int32Full wideValue fullArena =
          some (false, arr1, arena1) → arr1 = int32Full) ∧
      (∀ arr1 arena1,
        upb_Array_Insert Arch.bits64 int32Full 1 2 fullArena =
          some (false, arr1, arena1) → arr1 = int32Full) :=
  ⟨by decide, by decide, by with_unfolding_all rfl, by with_unfolding_all rfl,
    (alloc_failure_is_atomic Arch.bits64 int32Full wideValue 1 2 fullArena (by decide)
      (by decide)).2.1,
    (alloc_failure_is_atomic Arch.bits64 int32Full wideValue 1 2 fullArena (by decide)
      (by decide)).2.2.2⟩

/-- Claim C9: for every array and every `i`, `count` with
`i + count <= length`: `upb_Array_Delete(arr, i, count)`, followed by
`upb_Array_Insert(arr, i, count, arena)` (which then succeeds without
touching the arena) and `upb_Array_Set` of each slot `i .. i + count - 1` to
the value `upb_Array_Get` returned for it originally, reproduces the original
length and the original content of every element. -/
theorem upb_Array_Delete_Insert_Set_restores (A : Arch) (arr : upb_Array) (i count : Nat)
    (arena : upb_Arena) (ret : upb_MessageValue) (vals : List upb_MessageValue)
    (hwf : arr.WF A) (h : i + count ≤ arr.len) (hret : 1 <<< (arr.data &&& 7) ≤ ret.length)
    (hlen : vals.length = count)
    (hvals : ∀ t, t < count → upb_Array_Get A arr (i + t) ret = some (vals.getD t [])) :
    ∃ arr1 arr2 arr3, upb_Array_Delete A arr i count = some arr1 ∧
      upb_Array_Insert A arr1 i count arena = some (true, arr2, arena) ∧
      upb_Array_SetRange A arr2 i vals = some arr3 ∧
      arr3.len = arr.len ∧ ∀ j, j < arr.len → arr3.elem A j = arr.elem A j := by
  have hl := hwf.2.1
  have hs := size_lt hwf
  obtain ⟨arr1, hdel, hwf1, hd1, hs1, hl1, d1, d2, _⟩ := delete_spec hwf h
  have hins : upb_Array_Insert A arr1 i count arena =
      some (true, upb_Array_Move A { arr1 with len := arr1.len + count } (i + count) i
        (arr1.len - i), arena) := by
    rw [insert_eq arena (by omega) (by omega), resize_noalloc (by omega)]
  obtain ⟨hwf2, ht2, hl2, i1, i2⟩ := insert_spec hwf1 hins
  obtain ⟨arr3, hrun, _, hd3, hl3, _, s1, s2⟩ :=
    setRange_spec vals _ i hwf2 (by omega)
  have hl2s := hwf2.2.1
  refine ⟨arr1, _, arr3, hdel, hins, hrun, by omega, fun j hj => ?_⟩
  by_cases hji : j < i
  · rw [s2 j (by omega) (Or.inl hji), i1 j hji, d1 j hji]
  · by_cases hjc : j < i + count
    · have e : j = i + (j - i) := by omega
      have hg := hvals (j - i) (by omega)
      rw [← e, get_some ret (by omega)] at hg
      have hv : vals.getD (j - i) [] = memWrite ret 0 (arr.elem A j) := by
        simpa using hg.symm
      rw [e, s1 (j - i) (by omega), ← e, hv, ht2, hd1]
      have hle : (arr.elem A j).length ≤ ret.length := by
        rw [length_elem, ← one_shl]; exact hret
      have := memRead_memWrite_zero ret (arr.elem A j) hle
      rw [length_elem] at this
      exact this
    · have e : j = i + count + (j - (i + count)) := by omega
      rw [s2 j (by omega) (Or.inr (by omega)), e, i2 (j - (i + count)) (by omega),
        d2 (j - (i + count)) (by omega)]

/-- Witness for C9: slots 1 and 2 of a full Int32 array are deleted,
re-inserted (with an exhausted arena: no allocation is needed) and set back. -/
theorem upb_Array_Delete_Insert_Set_restores_witness :
    int32Full.WF Arch.bits64 ∧ 1 + 2 ≤ int32Full.len ∧
      1 <<< (int32Full.data &&& 7) ≤ zeroValue.length ∧ savedValues.length = 2 ∧
      (∀ t, t < 2 →
        upb_Array_Get Arch.bits64 int32Full (1 + t) zeroValue =
          some (savedValues.getD t [])) ∧
      ∃ arr1 arr2 arr3, upb_Array_Delete Arch.bits64 int32Full 1 2 = some arr1 ∧
        upb_Array_Insert Arch.bits64 arr1 1 2 fullArena = some (true, arr2, fullArena) ∧
        upb_Array_SetRange Arch.bits64 arr2 1 savedValues = some arr3 ∧
        arr3.len = int32Full.len ∧
        ∀ j, j < int32Full.len → arr3.elem Arch.bits64 j = int32Full.elem Arch.bits64 j :=
  ⟨by decide, by decide, by decide, by decide, by decide,
    upb_Array_Delete_Insert_Set_restores Arch.bits64 int32Full 1 2 fullArena zeroValue
      savedValues (by decide) (by decide) (by decide) (by decide) (by decide)⟩

/-! ## The Int32 scenario -/

/-- Claim C11: for every value kind, on both targets, the log2-width tag that
`upb_Array_New` takes from `_upb_CTypeo_sizelg2` lies in `0 .. 4`; it survives
the packing into the 8-aligned block address, so `data & 7` recovers exactly
that tag in the new array, and every element occupies exactly `1 << tag`
bytes. -/
theorem upb_Array_New_tag (A : Arch) (type : upb_CType) (a a1 : upb_Arena) (arr : upb_Array)
    (h : upb_Array_New A a type = some (arr, a1)) :
    sizelg2 A type ≤ 4 ∧
      (∀ q, (_upb_tag_arrptr (q * 8) (sizelg2 A type)) &&& 7 = sizelg2 A type) ∧
      (arr.data &&& 7) = sizelg2 A type ∧
      (∀ i, (arr.elem A i).length = 1 <<< sizelg2 A type) ∧
      arr.mem.length = arr.size * (1 <<< sizelg2 A type) := by
  obtain ⟨hwf, _, _, ht⟩ := new_spec h
  have hle := sizelg2_le A type
  refine ⟨hle, fun q => tag_of_tagged q _ (by omega), ht, fun i => ?_, ?_⟩
  · rw [length_elem, ht, one_shl]
  · rw [hwf.2.2.1, ht, Nat.shiftLeft_eq, one_shl]

/-- Witness for C11: a new Int32 array on the 64-bit target. -/
theorem upb_Array_New_tag_witness :
    upb_Array_New Arch.bits64 junkArena upb_CType.Int32 = some (int32Fresh, junkArenaAfterNew) ∧
      sizelg2 Arch.bits64 upb_CType.Int32 ≤ 4 ∧
      (int32Fresh.data &&& 7) = sizelg2 Arch.bits64 upb_CType.Int32 ∧
      (∀ i, (int32Fresh.elem Arch.bits64 i).length = 1 <<< sizelg2 Arch.bits64 upb_CType.Int32) :=
  ⟨by with_unfolding_all rfl,
    (upb_Array_New_tag Arch.bits64 upb_CType.Int32 junkArena junkArenaAfterNew int32Fresh
      (by with_unfolding_all rfl)).1,
    (upb_Array_New_tag Arch.bits64 upb_CType.Int32 junkArena junkArenaAfterNew int32Fresh
      (by with_unfolding_all rfl)).2.2.1,
    (upb_Array_New_tag Arch.bits64 upb_CType.Int32 junkArena junkArenaAfterNew int32Fresh
      (by with_unfolding_all rfl)).2.2.2.1⟩

/-- Claim C16: `upb_Array_Set` overwrites in place: for every array, every
`i < length` and every value `v`, the call succeeds, the length, capacity and
width tag are unchanged, every element `j != i` has exactly the bytes it had
before, slot `i` holds the low `1 << lg2` bytes of `v`, and no byte of the
block outside the `1 << lg2` bytes of slot `i` is written. -/
theorem upb_Array_Set_in_place (A : Arch) (arr : upb_Array) (i : Nat) (v : upb_MessageValue)
    (hwf : arr.WF A) (hi : i < arr.len) :
    ∃ arr1, upb_Array_Set A arr i v = some arr1 ∧
      arr1.len = arr.len ∧ arr1.size = arr.size ∧ arr1.data = arr.data ∧
      arr1.mem.length = arr.mem.length ∧
      (∀ j, j < arr.len → j ≠ i → arr1.elem A j = arr.elem A j) ∧
      arr1.elem A i = memRead v 0 (1 <<< (arr.data &&& 7)) ∧
      (∀ k, ¬ (shlw A i (arr.data &&& 7) ≤ k ∧
            k < shlw A i (arr.data &&& 7) + 1 <<< (arr.data &&& 7)) →
        arr1.mem.getD k 0 = arr.mem.getD k 0) := by
  obtain ⟨arr1, hset, hwf1, hd, hl, hs, hb⟩ := set_spec hwf hi v
  obtain ⟨e1, e2⟩ := set_elem hwf hi hset
  have hle := hwf.2.1
  refine ⟨arr1, hset, hl, hs, hd, ?_, fun j hj hne => e2 j (by omega) hne, by rw [e1, one_shl],
    fun k hk => ?_⟩
  · rw [hwf1.2.2.1, hwf.2.2.1, hd, hs]
  · rw [(offset_eq hwf (show i ≤ arr.size by omega)).1, one_shl] at hk
    rw [hb k, if_neg]
    rw [Nat.add_mul, Nat.one_mul]
    exact hk

/-- Witness for C16: a store into slot 1 of the three-element Int32 array. -/
theorem upb_Array_Set_in_place_witness :
    int32Arr.WF Arch.bits64 ∧ 1 < int32Arr.len ∧
      ∃ arr1, upb_Array_Set Arch.bits64 int32Arr 1 wideValue = some arr1 ∧
        arr1.len = int32Arr.len ∧ arr1.size = int32Arr.size ∧ arr1.data = int32Arr.data ∧
        arr1.mem.length = int32Arr.mem.length ∧
        (∀ j, j < int32Arr.len → j ≠ 1 →
          arr1.elem Arch.bits64 j = int32Arr.elem Arch.bits64 j) ∧
        arr1.elem Arch.bits64 1 = memRead wideValue 0 (1 <<< (int32Arr.data &&& 7)) ∧
        (∀ k, ¬ (shlw Arch.bits64 1 (int32Arr.data &&& 7) ≤ k ∧
              k < shlw Arch.bits64 1 (int32Arr.data &&& 7) + 1 <<< (int32Arr.data &&& 7)) →
          arr1.mem.getD k 0 = int32Arr.mem.getD k 0) :=
  ⟨by decide, by decide,
    upb_Array_Set_in_place Arch.bits64 int32Arr 1 wideValue (by decide) (by decide)⟩

/-- Claim C17: the two size-class tables agree: for every fixed-width kind, on
both targets, the map byte width equals `1 <<` the array log2 width; for
String and Bytes the map byte width is 0 while the array element width
`1 << lg2` is twice the pointer width (8 on a 32-bit target, 16 on a 64-bit
target). -/
theorem size_tables_agree (A : Arch) (type : upb_CType) :
    match type with
    | .String | .Bytes =>
        mapsize A type = 0 ∧ 1 <<< sizelg2 A type = 2 * A.ptrBytes ∧
          2 * A.ptrBytes = (match A with
            | .bits32 => 8
            | .bits64 => 16)
    | _ => mapsize A type = 1 <<< sizelg2 A type := by
  cases A <;> cases type <;> decide

/-- Claim C20: for every value kind, on both targets, the number of bytes
`1 << lg2` that `upb_Array_Get` copies into the returned value and that
`upb_Array_Set` copies out of the supplied value does not exceed
`sizeof(upb_MessageValue)` (8 bytes on a 32-bit target, 16 on a 64-bit
target), so in an array made by `upb_Array_New` neither copy reaches past a
value of that size. -/
theorem value_copy_within_union (A : Arch) (type : upb_CType) (a a1 : upb_Arena)
    (arr : upb_Array) (v ret : upb_MessageValue)
    (h : upb_Array_New A a type = some (arr, a1))
    (hv : v.length = sizeof_MessageValue A) (hret : ret.length = sizeof_MessageValue A) :
    1 <<< sizelg2 A type ≤ sizeof_MessageValue A ∧
      sizeof_MessageValue A = (match A with
        | .bits32 => 8
        | .bits64 => 16) ∧
      0 + 1 <<< (arr.data &&& 7) ≤ ret.length ∧ 0 + 1 <<< (arr.data &&& 7) ≤ v.length ∧
      (∀ i r, upb_Array_Get A arr i ret = some r → r.length = sizeof_MessageValue A) := by
  obtain ⟨_, _, _, ht⟩ := new_spec h
  have h1 : 1 <<< sizelg2 A type ≤ sizeof_MessageValue A := by
    cases A <;> cases type <;> decide
  refine ⟨h1, by cases A <;> rfl, by rw [ht, hret]; omega, by rw [ht, hv]; omega, ?_⟩
  intro i r hr
  unfold upb_Array_Get at hr
  simp only at hr
  split at hr
  · cases hr
    rw [memcpy, length_memWrite, hret]
  · exact absurd hr (by simp)

/-- Witness for C20: a new Int32 array on the 64-bit target and two 16-byte
values. -/
theorem value_copy_within_union_witness :
    upb_Array_New Arch.bits64 junkArena upb_CType.Int32 = some (int32Fresh, junkArenaAfterNew) ∧
      wideValue.length = sizeof_MessageValue Arch.bits64 ∧
      zeroValue.length = sizeof_MessageValue Arch.bits64 ∧
      1 <<< sizelg2 Arch.bits64 upb_CType.Int32 ≤ sizeof_MessageValue Arch.bits64 ∧
      0 + 1 <<< (int32Fresh.data &&& 7) ≤ zeroValue.length ∧
      0 + 1 <<< (int32Fresh.data &&& 7) ≤ wideValue.length :=
  ⟨by with_unfolding_all rfl, by decide, by decide,
    (value_copy_within_union Arch.bits64 upb_CType.Int32 junkArena junkArenaAfterNew
      int32Fresh wideValue zeroValue (by with_unfolding_all rfl) (by decide) (by decide)).1,
    (value_copy_within_union Arch.bits64 upb_CType.Int32 junkArena junkArenaAfterNew
      int32Fresh wideValue zeroValue (by with_unfolding_all rfl) (by decide) (by decide)).2.2.1,
    (value_copy_within_union Arch.bits64 upb_CType.Int32 junkArena junkArenaAfterNew
      int32Fresh wideValue zeroValue (by with_unfolding_all rfl) (by decide)
      (by decide)).2.2.2.1⟩

/-- Claim C19: the overflow guards are exact over `w`-bit unsigned arithmetic:
in `upb_Array_Delete`, with `end = (i + count) mod 2^w`, the assertion
`i <= end` holds if and only if `i + count` does not overflow; in
`upb_Array_Insert`, the assertion `(count + len) mod 2^w >= count` holds if
and only if `count + len` does not overflow. Consequently, when both of
delete's assertions hold, `i + count <= length` and `length - count` does not
underflow; the delete passes its assertions exactly when `i + count <= length`
and the insert exactly when `i <= length` and `count + length` fits. -/
theorem overflow_guards_exact (A : Arch) (arr : upb_Array) (i count : Nat) (arena : upb_Arena)
    (hc : count < A.sizeMod) (hl : arr.len < A.sizeMod) :
    (i ≤ addw A i count ↔ i + count < A.sizeMod) ∧
      (addw A count arr.len ≥ count ↔ count + arr.len < A.sizeMod) ∧
      (i ≤ addw A i count → addw A i count ≤ arr.len →
        i + count ≤ arr.len ∧ count ≤ arr.len ∧ subw A arr.len count = arr.len - count) ∧
      ((upb_Array_Delete A arr i count).isSome = true ↔ i + count ≤ arr.len) ∧
      ((upb_Array_Insert A arr i count arena).isSome = true ↔
        i ≤ arr.len ∧ count + arr.len < A.sizeMod) := by
  have g1 : i ≤ addw A i count ↔ i + count < A.sizeMod :=
    ⟨fun h => addw_no_overflow hc h, fun h => by rw [addw_eq h]; omega⟩
  have g2 : addw A count arr.len ≥ count ↔ count + arr.len < A.sizeMod :=
    ⟨fun h => addw_no_overflow hl h, fun h => by rw [addw_eq h]; omega⟩
  have g3 : i ≤ addw A i count → addw A i count ≤ arr.len →
      i + count ≤ arr.len ∧ count ≤ arr.len ∧ subw A arr.len count = arr.len - count := by
    intro h1 h2
    have h3 := g1.mp h1
    rw [addw_eq h3] at h2
    exact ⟨h2, by omega, subw_eq (by omega) hl⟩
  refine ⟨g1, g2, g3, ?_, ?_⟩
  · unfold upb_Array_Delete
    simp only
    by_cases h1 : i ≤ addw A i count
    · by_cases h2 : addw A i count ≤ arr.len
      · have := (g3 h1 h2).1
        simp [h1, h2, this]
      · have h3 := g1.mp h1
        have h4 : ¬ (i + count ≤ arr.len) := by rw [addw_eq h3] at h2; exact h2
        simp [h1, h2, h4]
    · have h3 : ¬ (i + count ≤ arr.len) := fun h => h1 (g1.mpr (by omega))
      simp [h1, h3]
  · unfold upb_Array_Insert
    by_cases h1 : i ≤ arr.len
    · by_cases h2 : addw A count arr.len ≥ count
      · have h3 := g2.mp h2
        rw [if_neg (by simpa using h1), if_neg (by simpa using h2)]
        simp only
        rcases hres : upb_Array_Resize A arr (addw A arr.len count) arena with ⟨b, a1, ar1⟩
        cases b <;> simp [h1, h3]
      · have h3 : ¬ (count + arr.len < A.sizeMod) := fun h => h2 (g2.mpr h)
        simp [h1, h2, h3]
    · simp [h1]

/-- Witness for C19: the full four-element Int32 array on the 64-bit target,
index 1 and count 2. -/
theorem overflow_guards_exact_witness :
    2 < Arch.sizeMod Arch.bits64 ∧
      int32Full.len < Arch.sizeMod Arch.bits64 ∧
      (1 ≤ addw Arch.bits64 1 2 ↔ 1 + 2 < Arch.sizeMod Arch.bits64) ∧
      (addw Arch.bits64 2 int32Full.len ≥ 2 ↔ 2 + int32Full.len < Arch.sizeMod Arch.bits64) ∧
      ((upb_Array_Delete Arch.bits64 int32Full 1 2).isSome = true ↔ 1 + 2 ≤ int32Full.len) :=
  ⟨by decide, by decide,
    (overflow_guards_exact Arch.bits64 int32Full 1 2 fullArena (by decide) (by decide)).1,
    (overflow_guards_exact Arch.bits64 int32Full 1 2 fullArena (by decide) (by decide)).2.1,
    (overflow_guards_exact Arch.bits64 int32Full 1 2 fullArena (by decide)
      (by decide)).2.2.2.1⟩

/-! ## Claims about maps -/

/-- Claim C12: for every map, all keys `k1 != k2` (distinct as keys of the
map's kind: their packed key bytes, that is the `key_size` bytes of a
fixed-width key or the string of a string key, differ) and all values `v1`,
`v2`: after successful `upb_Map_Set(map, k1, v1)` and
`upb_Map_Set(map, k2, v2)`, `upb_Map_Get(map, k1)` reports found with exactly
the value bytes of `v1` and `upb_Map_Get(map, k2)` reports found with exactly
the value bytes of `v2`: the output holds the `val_size` bytes of the stored
value (the handle, for a string value) in front of what it held beyond them. -/
theorem upb_Map_Set_Set_Get (A : Arch) (heap : Heap) (m m1 m2 : upb_Map)
    (k1 k2 v1 v2 out : upb_MessageValue) (a a1 a2 : upb_Arena)
    (hk : _upb_map_tokey A heap k1 m.key_size ≠ _upb_map_tokey A heap k2 m.key_size)
    (h1 : upb_Map_Set A heap m k1 v1 a = (true, m1, a1))
    (h2 : upb_Map_Set A heap m1 k2 v2 a1 = (true, m2, a2))
    (hr1 : (_upb_map_tovalue A v1 m.val_size).length ≤ out.length)
    (hr2 : (_upb_map_tovalue A v2 m.val_size).length ≤ out.length) :
    (upb_Map_Get A heap m2 k1 out).1 = true ∧
      _upb_map_tovalue A (upb_Map_Get A heap m2 k1 out).2 m.val_size =
        _upb_map_tovalue A v1 m.val_size ∧
      (upb_Map_Get A heap m2 k2 out).1 = true ∧
      _upb_map_tovalue A (upb_Map_Get A heap m2 k2 out).2 m.val_size =
        _upb_map_tovalue A v2 m.val_size ∧
      ((if m.val_size = UPB_MAPTYPE_STRING then 2 * A.ptrBytes else m.val_size) ≤ v1.length →
        (upb_Map_Get A heap m2 k1 out).2 =
          v1.take (if m.val_size = UPB_MAPTYPE_STRING then 2 * A.ptrBytes else m.val_size) ++
            out.drop (if m.val_size = UPB_MAPTYPE_STRING then 2 * A.ptrBytes
              else m.val_size)) ∧
      ((if m.val_size = UPB_MAPTYPE_STRING then 2 * A.ptrBytes else m.val_size) ≤ v2.length →
        (upb_Map_Get A heap m2 k2 out).2 =
          v2.take (if m.val_size = UPB_MAPTYPE_STRING then 2 * A.ptrBytes else m.val_size) ++
            out.drop (if m.val_size = UPB_MAPTYPE_STRING then 2 * A.ptrBytes
              else m.val_size)) := by
  obtain ⟨hks1, hvs1, _⟩ := map_set_ok h1
  obtain ⟨hks2, hvs2, _⟩ := map_set_ok h2
  obtain ⟨l1, _⟩ := map_lookup_after_set h1
  obtain ⟨l2, o2⟩ := map_lookup_after_set h2
  rw [hks1] at l2 o2
  rw [hvs1] at l2
  have l1' : upb_strtable_lookup2 m2.table (_upb_map_tokey A heap k1 m2.key_size) =
      some (_upb_map_tovalue A v1 m.val_size) := by
    rw [hks2, hks1, o2 _ hk, l1]
  have l2' : upb_strtable_lookup2 m2.table (_upb_map_tokey A heap k2 m2.key_size) =
      some (_upb_map_tovalue A v2 m.val_size) := by
    rw [hks2, hks1, l2]
  rw [map_get_of_lookup out l1', map_get_of_lookup out l2', hvs2, hvs1]
  rw [length_tovalue] at hr1 hr2
  exact ⟨rfl, tovalue_fromvalue A v1 out _ (by rw [length_tovalue]; exact hr1), rfl,
    tovalue_fromvalue A v2 out _ (by rw [length_tovalue]; exact hr2),
    fun hv => fromvalue_tovalue_eq A v1 out _ hv hr1,
    fun hv => fromvalue_tovalue_eq A v2 out _ hv hr2⟩

/-- Claim C13: `upb_Map_Set` is an upsert: for every map, key `k` and values
`v1`, `v2`, after `upb_Map_Set(map, k, v1)` then `upb_Map_Set(map, k, v2)`
(both succeeding), `upb_Map_Get(map, k)` reports found and returns `v2` as a
value of the map's value kind: the output holds the `val_size` bytes of `v2`
(the handle, for a string value) in front of what it held beyond them; and
`upb_Map_Size(map)` is the same as after the first set. -/
theorem upb_Map_Set_is_upsert (A : Arch) (heap : Heap) (m m1 m2 : upb_Map)
    (k v1 v2 out : upb_MessageValue) (a a1 a2 : upb_Arena)
    (h1 : upb_Map_Set A heap m k v1 a = (true, m1, a1))
    (h2 : upb_Map_Set A heap m1 k v2 a1 = (true, m2, a2))
    (hroom : (_upb_map_tovalue A v2 m.val_size).length ≤ out.length) :
    (upb_Map_Get A heap m2 k out).1 = true ∧
      _upb_map_tovalue A (upb_Map_Get A heap m2 k out).2 m.val_size =
        _upb_map_tovalue A v2 m.val_size ∧
      upb_Map_Size m2 = upb_Map_Size m1 ∧
      ((if m.val_size = UPB_MAPTYPE_STRING then 2 * A.ptrBytes else m.val_size) ≤ v2.length →
        (upb_Map_Get A heap m2 k out).2 =
          v2.take (if m.val_size = UPB_MAPTYPE_STRING then 2 * A.ptrBytes else m.val_size) ++
            out.drop (if m.val_size = UPB_MAPTYPE_STRING then 2 * A.ptrBytes
              else m.val_size)) := by
  obtain ⟨hks1, hvs1, hi1⟩ := map_set_ok h1
  obtain ⟨hks2, hvs2, hi2⟩ := map_set_ok h2
  obtain ⟨l2, _⟩ := map_lookup_after_set h2
  rw [hks1, hvs1] at l2
  have l2' : upb_strtable_lookup2 m2.table (_upb_map_tokey A heap k m2.key_size) =
      some (_upb_map_tovalue A v2 m.val_size) := by
    rw [hks2, hks1, l2]
  rw [map_get_of_lookup out l2', hvs2, hvs1]
  refine ⟨rfl, tovalue_fromvalue A v2 out _ hroom, ?_, fun hv => ?_⟩
  · obtain ⟨p1, e1⟩ := insert_ok hi1
    obtain ⟨p2, e2⟩ := insert_ok hi2
    rw [hks1] at e2
    unfold upb_Map_Size _upb_Map_Size upb_strtable_count
    rw [e2, e1]
    simp [upb_strtable_remove2, List.filter_append, List.filter_filter]
  · rw [length_tovalue] at hroom
    exact fromvalue_tovalue_eq A v2 out _ hv hroom

/-- Witness for C12: a `Bool -> Int32` map, the keys with key byte 1 and key
byte 0, the values 1 and 2. -/
theorem upb_Map_Set_Set_Get_witness :
    _upb_map_tokey Arch.bits64 abHeap narrowValue boolInt32Map.key_size ≠
        _upb_map_tokey Arch.bits64 abHeap zeroValue boolInt32Map.key_size ∧
      upb_Map_Set Arch.bits64 abHeap boolInt32Map narrowValue
          (upb_MessageValue.ofInt32 Arch.bits64 1) junkArena =
        (true, setOnce.2.1, setOnce.2.2) ∧
      upb_Map_Set Arch.bits64 abHeap setOnce.2.1 zeroValue
          (upb_MessageValue.ofInt32 Arch.bits64 2) setOnce.2.2 =
        (true, setTwice.2.1, setTwice.2.2) ∧
      (_upb_map_tovalue Arch.bits64 (upb_MessageValue.ofInt32 Arch.bits64 1)
        boolInt32Map.val_size).length ≤ zeroValue.length ∧
      (_upb_map_tovalue Arch.bits64 (upb_MessageValue.ofInt32 Arch.bits64 2)
        boolInt32Map.val_size).length ≤ zeroValue.length ∧
      (upb_Map_Get Arch.bits64 abHeap setTwice.2.1 narrowValue zeroValue).1 = true ∧
      _upb_map_tovalue Arch.bits64
          (upb_Map_Get Arch.bits64 abHeap setTwice.2.1 narrowValue zeroValue).2
          boolInt32Map.val_size =
        _upb_map_tovalue Arch.bits64 (upb_MessageValue.ofInt32 Arch.bits64 1)
          boolInt32Map.val_size ∧
      (upb_Map_Get Arch.bits64 abHeap setTwice.2.1 zeroValue zeroValue).1 = true ∧
      _upb_map_tovalue Arch.bits64
          (upb_Map_Get Arch.bits64 abHeap setTwice.2.1 zeroValue zeroValue).2
          boolInt32Map.val_size =
        _upb_map_tovalue Arch.bits64 (upb_MessageValue.ofInt32 Arch.bits64 2)
          boolInt32Map.val_size :=
  ⟨by decide, by with_unfolding_all rfl, by with_unfolding_all rfl, by decide, by decide,
    match upb_Map_Set_Set_Get Arch.bits64 abHeap boolInt32Map setOnce.2.1 setTwice.2.1
      narrowValue zeroValue (upb_MessageValue.ofInt32 Arch.bits64 1)
      (upb_MessageValue.ofInt32 Arch.bits64 2) zeroValue junkArena setOnce.2.2 setTwice.2.2
      (by decide) (by with_unfolding_all rfl) (by with_unfolding_all rfl) (by decide)
      (by decide) with
    | ⟨g1, g2, g3, g4, _⟩ => ⟨g1, g2, g3, g4⟩⟩

/-- Witness for C13: a `Bool -> Bool` map, one key, overwritten. -/
theorem upb_Map_Set_is_upsert_witness :
    upb_Map_Set Arch.bits64 abHeap boolBoolMap narrowValue zeroValue junkArena =
        (true, boolSetOnce.2.1, boolSetOnce.2.2) ∧
      upb_Map_Set Arch.bits64 abHeap boolSetOnce.2.1 narrowValue wideValue boolSetOnce.2.2 =
        (true, (overwrittenMap wideValue).2.1, (overwrittenMap wideValue).2.2) ∧
      (_upb_map_tovalue Arch.bits64 wideValue boolBoolMap.val_size).length ≤
        zeroValue.length ∧
      (upb_Map_Get Arch.bits64 abHeap (overwrittenMap wideValue).2.1 narrowValue
        zeroValue).1 = true ∧
      _upb_map_tovalue Arch.bits64
          (upb_Map_Get Arch.bits64 abHeap (overwrittenMap wideValue).2.1 narrowValue
            zeroValue).2 boolBoolMap.val_size =
        _upb_map_tovalue Arch.bits64 wideValue boolBoolMap.val_size ∧
      upb_Map_Size (overwrittenMap wideValue).2.1 = upb_Map_Size boolSetOnce.2.1 :=
  ⟨by with_unfolding_all rfl, by with_unfolding_all rfl, by decide,
    match upb_Map_Set_is_upsert Arch.bits64 abHeap boolBoolMap boolSetOnce.2.1
      (overwrittenMap wideValue).2.1 narrowValue zeroValue wideValue zeroValue junkArena
      boolSetOnce.2.2 (overwrittenMap wideValue).2.2 (by with_unfolding_all rfl)
      (by with_unfolding_all rfl) (by decide) with
    | ⟨g1, g2, g3, _⟩ => ⟨g1, g2, g3⟩⟩

/-- Claim C14: for every map (of any key and value size, holding nothing
before) and every `N`, after inserting `N` distinct keys (distinct as keys of
the map's kind: their packed key bytes are pairwise distinct; no mutation
afterwards), the traversal that starts at the begin sentinel and repeatedly
calls `upb_MapIterator_Next` until it returns false ends within `N + 1` calls,
with `upb_MapIterator_Done` true at the final cursor and false at every
visited one; it visits exactly `N` entries, each position once, and
`upb_MapIterator_Key` / `upb_MapIterator_Value` at the visited positions
return exactly the stored key/value pairs, each once: packing the returned
key (a string key through the memory that holds the table's copy) and the
returned value gives the packed key and value of a stored pair. -/
theorem upb_Map_traverse_visits_each_once (A : Arch) (heap : Heap) (m0 m : upb_Map)
    (a0 a : upb_Arena) (kvs : List (upb_MessageValue × upb_MessageValue))
    (ret : upb_MessageValue) (hempty : m0.table.entries = [])
    (hnodup : (kvs.map fun kv => _upb_map_tokey A heap kv.1 m0.key_size).Nodup)
    (hN : kvs.length + 1 < A.sizeMod)
    (hkroom : (if m0.key_size = UPB_MAPTYPE_STRING then 2 * A.ptrBytes else m0.key_size) ≤
      ret.length)
    (hroom : (_upb_map_tovalue A ret m0.val_size).length ≤ ret.length)
    (hset : upb_Map_SetAll A heap m0 a0 kvs = some (m, a)) :
    ∃ visited,
      upb_Map_traverse A m ret (kvs.length + 1) (kUpb_Map_Begin A) =
        some (visited, kvs.length) ∧
      visited.length = kvs.length ∧ upb_Map_Size m = kvs.length ∧
      upb_MapIterator_Done A m kvs.length = some true ∧
      (visited.map fun p => p.1) = List.range kvs.length ∧
      (∀ p ∈ visited, upb_MapIterator_Done A m p.1 = some false ∧
        p.2.1 = upb_MapIterator_Key A m p.1 ret ∧
        p.2.2 = upb_MapIterator_Value A m p.1 ret) ∧
      List.Perm
        (visited.map fun p =>
          ((upb_strtable_iter_entry { t := m.table, index := p.1 }).key,
            _upb_map_tovalue A p.2.2 m0.val_size))
        (kvs.map fun kv =>
          (_upb_map_tokey A heap kv.1 m0.key_size, _upb_map_tovalue A kv.2 m0.val_size)) ∧
      List.Perm
        (visited.map fun p =>
          (_upb_map_tokey A (m.memory heap) p.2.1 m0.key_size,
            _upb_map_tovalue A p.2.2 m0.val_size))
        (kvs.map fun kv =>
          (_upb_map_tokey A heap kv.1 m0.key_size, _upb_map_tovalue A kv.2 m0.val_size)) := by
  obtain ⟨hk, hv, hE⟩ := setAll_spec kvs m0 m a0 a hset
    (fun _ _ e he => by rw [hempty] at he; simp at he) hnodup
  have hinv : m.table.KeysStored A a :=
    keysStored_setAll kvs m0 m a0 a
      ⟨by rw [hempty]; exact List.Pairwise.nil, fun e he => by rw [hempty] at he; simp at he⟩
      hset
  rw [hempty] at hE
  simp only [List.map_nil, List.nil_append] at hE
  have hlen : m.table.entries.length = kvs.length := by
    have := congrArg List.length hE
    simpa using this
  have htr := traverse_from m ret (by rw [hlen]; exact hN) kvs.length 0 (kUpb_Map_Begin A)
    (by omega) (begin_wraps A)
  rw [← List.range_eq_range', hlen] at htr
  have hbegin : kUpb_Map_Begin A = A.sizeMod - 1 := rfl
  -- every entry is a packed stored pair
  have hmem : ∀ e ∈ m.table.entries, ∃ kv ∈ kvs,
      e.key = _upb_map_tokey A heap kv.1 m0.key_size ∧
        e.val = _upb_map_tovalue A kv.2 m0.val_size := by
    intro e he
    have h1 : (e.key, e.val) ∈ m.table.entries.map fun e => (e.key, e.val) :=
      List.mem_map.mpr ⟨e, he, rfl⟩
    rw [hE] at h1
    obtain ⟨kv, hkv, heq⟩ := List.mem_map.mp h1
    simp only [Prod.mk.injEq] at heq
    exact ⟨kv, hkv, heq.1.symm, heq.2.symm⟩
  have hval : ∀ e ∈ m.table.entries,
      _upb_map_tovalue A (_upb_map_fromvalue A e.val ret m.val_size) m0.val_size = e.val := by
    intro e he
    obtain ⟨kv, _, _, h2⟩ := hmem e he
    rw [hv, h2]
    apply tovalue_fromvalue
    rw [length_tovalue] at hroom ⊢
    exact hroom
  have hkey : ∀ e ∈ m.table.entries,
      _upb_map_tokey A (m.memory heap) (_upb_map_fromkey A e ret m.key_size) m0.key_size =
        e.key := by
    intro e he
    obtain ⟨kv, _, h1, _⟩ := hmem e he
    rw [hk]
    exact tokey_fromkey_entry heap hinv e he ret _
      (fun hs => by rw [h1]; exact length_tokey_fixed A heap _ _ hs) hkroom
  refine ⟨_, htr, by simp, by simp [upb_Map_Size, _upb_Map_Size, upb_strtable_count, hlen],
    ?_, ?_, ?_, ?_, ?_⟩
  · simp only [upb_MapIterator_Done, upb_strtable_done, hlen]
    rw [if_neg (by rw [hbegin]; simp only [not_not]; omega)]
    simp
  · rw [List.map_map]
    exact List.map_id _
  · intro p hp
    obtain ⟨j, hj, rfl⟩ := List.mem_map.mp hp
    have hj2 : j < kvs.length := by simpa using hj
    refine ⟨?_, rfl, rfl⟩
    simp only [upb_MapIterator_Done, upb_strtable_done, hlen]
    rw [if_neg (by rw [hbegin]; simp only [not_not]; omega)]
    simp [hj2]
  · rw [List.map_map, ← hE, ← hlen]
    have := map_getD_range m.table.entries
      (fun e => (e.key, _upb_map_tovalue A (_upb_map_fromvalue A e.val ret m.val_size)
        m0.val_size)) { key := [], keyptr := 0, val := [] }
    have h2 : (m.table.entries.map fun e =>
        (e.key, _upb_map_tovalue A (_upb_map_fromvalue A e.val ret m.val_size) m0.val_size)) =
        m.table.entries.map fun e => (e.key, e.val) :=
      List.map_congr_left fun e he => by rw [hval e he]
    rw [← h2, ← this]
    exact List.Perm.refl _
  · rw [List.map_map, ← hE, ← hlen]
    have := map_getD_range m.table.entries
      (fun e => (_upb_map_tokey A (m.memory heap) (_upb_map_fromkey A e ret m.key_size)
          m0.key_size,
        _upb_map_tovalue A (_upb_map_fromvalue A e.val ret m.val_size) m0.val_size))
      { key := [], keyptr := 0, val := [] }
    have h2 : (m.table.entries.map fun e =>
        (_upb_map_tokey A (m.memory heap) (_upb_map_fromkey A e ret m.key_size) m0.key_size,
          _upb_map_tovalue A (_upb_map_fromvalue A e.val ret m.val_size) m0.val_size)) =
        m.table.entries.map fun e => (e.key, e.val) :=
      List.map_congr_left fun e he => by rw [hval e he, hkey e he]
    rw [← h2, ← this]
    exact List.Perm.refl _

/-- Witness for C14: a `String -> Int32` map with the two keys "a" and "b";
the key the iterator returns at position 0 packs to "a" and the one at
position 1 to "b". -/
theorem upb_Map_traverse_visits_each_once_witness :
    strInt32Map.table.entries = [] ∧
      (abPairs.map fun kv =>
          _upb_map_tokey Arch.bits64 abHeap kv.1 strInt32Map.key_size).Nodup ∧
      abPairs.length + 1 < Arch.sizeMod Arch.bits64 ∧
      (if strInt32Map.key_size = UPB_MAPTYPE_STRING then 2 * Arch.ptrBytes Arch.bits64
        else strInt32Map.key_size) ≤ zeroValue.length ∧
      (_upb_map_tovalue Arch.bits64 zeroValue strInt32Map.val_size).length ≤
        zeroValue.length ∧
      upb_Map_SetAll Arch.bits64 abHeap strInt32Map junkArena abPairs =
        some (strSetTwice.2.1, strSetTwice.2.2) ∧
      (∃ visited,
        upb_Map_traverse Arch.bits64 strSetTwice.2.1 zeroValue (abPairs.length + 1)
            (kUpb_Map_Begin Arch.bits64) = some (visited, abPairs.length) ∧
          visited.length = abPairs.length ∧ upb_Map_Size strSetTwice.2.1 = abPairs.length) ∧
      _upb_map_tokey Arch.bits64 (strSetTwice.2.1.memory abHeap)
        (upb_MapIterator_Key Arch.bits64 strSetTwice.2.1 0 zeroValue) 0 = [97] ∧
      _upb_map_tokey Arch.bits64 (strSetTwice.2.1.memory abHeap)
        (upb_MapIterator_Key Arch.bits64 strSetTwice.2.1 1 zeroValue) 0 = [98] :=
  ⟨by decide, by decide, by decide, by decide, by decide, by with_unfolding_all rfl,
    match upb_Map_traverse_visits_each_once Arch.bits64 abHeap strInt32Map strSetTwice.2.1
      junkArena strSetTwice.2.2 abPairs zeroValue (by decide) (by decide) (by decide)
      (by decide) (by decide) (by with_unfolding_all rfl) with
    | ⟨visited, h1, h2, h3, _⟩ => ⟨visited, h1, h2, h3⟩,
    by decide, by decide⟩

end Upb
